import Mathlib

/-!
Verification of the installment-backend ledger engine.

This file is a shallow embedding, over exact rational arithmetic, of the
financial core of the repository:

* `src/utils/finance.ts` — rounding, schedule generation
  (`generateSchedule`, `amortizedMonthlyPayment`), the waterfall payment
  allocator (`allocatePaymentToSchedule`) and the ledger consistency
  recalculator (`calculateRemainingBalance`);
* the payments router (payment create / edit / delete mutations of a plan's
  embedded schedule, the persistence order of a payment creation, and the
  cash-balance credit/debit of the receiving user);
* the cash-transfer route (`src/routes/cash.ts`) with its guarded
  conditional decrement and its compensation path;
* the expenses route (`src/routes/expenses.ts`);
* a small sequential state machine tying the balance-mutating operations of
  the public mutation API together.

Modelling conventions: JavaScript numbers are modelled as `ℚ` (the claims
under test are about the algorithms, whose reference semantics is exact
arithmetic; the spec's epsilons are carried explicitly).  Date fields
(`dueDate`, `paidDate`, `paymentDate`) and display-only fields (the equal
model's per-entry `balance` field) carry no financial content used by any
claim and are not modelled.  Persistence-layer I/O is modelled by explicit
state passing; where a claim is about behaviour under a failing write the
failure is an explicit boolean input.
-/

namespace Installment

/-- Rounding policies of `src/utils/finance.ts`. -/
inductive RoundingPolicy
  | nearest
  | up
  | down
  deriving DecidableEq, Repr

/-- Interest models of `src/utils/finance.ts`. -/
inductive InterestModel
  | amortized
  | flat
  | equal
  deriving DecidableEq, Repr

/-- Function applyRounding from `src/utils/finance.ts`: round to 2 decimal places;
`up` = `Math.ceil(v*100)/100`, `down` = `Math.floor(v*100)/100`,
`nearest` = `Math.round(v*100)/100` (round half up, as `Math.round`). -/
def applyRounding (value : ℚ) (policy : RoundingPolicy) : ℚ :=
  match policy with
  | .up => (⌈value * 100⌉ : ℚ) / 100
  | .down => (⌊value * 100⌋ : ℚ) / 100
  | .nearest => (round (value * 100) : ℚ) / 100

/-- Function amortizedMonthlyPayment from `src/utils/finance.ts`.
`if (!principal || months <= 0) return 0`; with a zero monthly rate it
degrades to `principal / months`, otherwise the standard annuity formula. -/
def amortizedMonthlyPayment (principal annualRate : ℚ) (months : ℕ) : ℚ :=
  if principal = 0 ∨ months = 0 then 0
  else
    let r := annualRate / 100 / 12
    if r = 0 then principal / months
    else
      let pow := (1 + r) ^ months
      principal * r * pow / (pow - 1)

/-- A generated schedule entry (output of `generateSchedule`).  The flat
branch of the source pushes entries that carry no `principal`/`interest`
fields at all; consumers read them as `Number(x || 0)`.  This optionality is
kept with `Option ℚ`.  `dueDate` is not modelled. -/
structure GenEntry where
  month : ℕ
  amount : ℚ
  principal : Option ℚ
  interest : Option ℚ
  deriving DecidableEq, Repr

/-- Coercion `Number(x || 0)` applied to an optional field. -/
def orZero (x : Option ℚ) : ℚ := x.getD 0

/-- The loop of the amortized branch of `generateSchedule`
(`src/utils/finance.ts` lines 59–78), recursing on the number of months
still to emit.  Returns the emitted entries together with the internal
running balance left after the loop.  In the last period the principal
portion is overridden to the whole remaining balance and the amount is the
rounded true-up `balance + interest`. -/
def amortGo (nominal rm : ℚ) (pol : RoundingPolicy) :
    ℕ → ℕ → ℚ → List GenEntry × ℚ
  | 0, _, balance => ([], balance)
  | 1, m, balance =>
    -- last period: principalPortion is overridden to `balance`
    let interest := if rm = 0 then 0 else balance * rm
    let interestR := applyRounding interest pol
    let principalR := applyRounding balance pol
    let amount := applyRounding (balance + interest) pol
    ([⟨m, amount, some principalR, some interestR⟩], max 0 (balance - balance))
  | (k + 2), m, balance =>
    let interest := if rm = 0 then 0 else balance * rm
    let principalPortion := nominal - interest
    let interestR := applyRounding interest pol
    let principalR := applyRounding principalPortion pol
    let amount := applyRounding (interestR + principalR) pol
    let rest := amortGo nominal rm pol (k + 1) (m + 1) (max 0 (balance - principalPortion))
    (⟨m, amount, some principalR, some interestR⟩ :: rest.1, rest.2)

/-- The internal running balance entering the LAST period of the amortized
loop, starting from `balance` with `monthsLeft` periods to go.  This mirrors
the balance recurrence of `amortGo` (it is introduced only to state theorems
about the last entry). -/
def amortLastBalance (nominal rm : ℚ) : ℕ → ℚ → ℚ
  | 0, balance => balance
  | 1, balance => balance
  | (k + 2), balance =>
    let interest := if rm = 0 then 0 else balance * rm
    let principalPortion := nominal - interest
    amortLastBalance nominal rm (k + 1) (max 0 (balance - principalPortion))

/-- Function generateSchedule from `src/utils/finance.ts`.  Degenerate inputs
(`months <= 0 || principal <= 0`) yield the empty schedule.  The flat branch
emits amount-only entries; the equal branch splits everything as principal
with zero interest; the amortized branch runs `amortGo`. -/
def generateSchedule (principal annualRate : ℚ) (months : ℕ)
    (rounding : RoundingPolicy := .nearest) (model : InterestModel := .equal) :
    List GenEntry :=
  if months = 0 ∨ principal ≤ 0 then []
  else
    match model with
    | .flat =>
      let totalWithInterest := principal * (1 + annualRate / 100 * (months / 12 : ℚ))
      let monthly := totalWithInterest / months
      (List.range months).map fun i =>
        ⟨i + 1, applyRounding monthly rounding, none, none⟩
    | .equal =>
      let monthly := principal / months
      (List.range months).map fun i =>
        let principalR := applyRounding monthly rounding
        ⟨i + 1, principalR, some principalR, some 0⟩
    | .amortized =>
      let monthlyNominal := amortizedMonthlyPayment principal annualRate months
      let r := annualRate / 100 / 12
      (amortGo monthlyNominal r rounding months 1 principal).1

/-- Persisted status of a schedule entry (`InstallmentPlan` schema enum).
The engine itself only ever writes `pending` and `paid`; `overdue` exists in
the schema. -/
inductive EntryStatus
  | pending
  | paid
  | overdue
  deriving DecidableEq, Repr

/-- A plan's embedded schedule entry as read and mutated by the allocator
and the payment routes.  `dueDate`/`paidDate` are not modelled; `interest`
is optional exactly as persisted (absent for flat-model plans). -/
structure SEntry where
  month : ℕ
  amount : ℚ
  paidAmount : ℚ
  status : EntryStatus
  interest : Option ℚ
  deriving DecidableEq, Repr

/-- One element of `allocation.appliedToMonths`; the overpayment bucket uses
`month = -1`. -/
structure Applied where
  month : ℤ
  applied : ℚ
  remainingForMonth : ℚ
  deriving DecidableEq, Repr

/-- The accounting breakdown accumulated by the allocator. -/
structure Breakdown where
  principal : ℚ
  interest : ℚ
  fees : ℚ
  deriving DecidableEq, Repr

/-- Intermediate state of the allocator loop. -/
structure AllocState where
  list : List Applied
  breakdown : Breakdown
  remaining : ℚ
  deriving DecidableEq, Repr

/-- The entry-scanning loop of `allocatePaymentToSchedule`
(`src/utils/finance.ts` lines 95–119): while `remaining > 0` walk the
schedule in order; skip entries with `outstanding ≤ 0`
(`outstanding = max(0, due − paid)`); otherwise apply
`min(outstanding, remaining)`, accumulate the breakdown (everything is
principal for the equal model, otherwise a proportional rounded split using
the entry's stored interest), and push the applied record. -/
def allocGo (model : InterestModel) (pol : RoundingPolicy) :
    List SEntry → ℚ → AllocState
  | [], remaining => ⟨[], ⟨0, 0, 0⟩, remaining⟩
  | e :: rest, remaining =>
    if remaining ≤ 0 then ⟨[], ⟨0, 0, 0⟩, remaining⟩
    else
      let due := e.amount
      let paid := e.paidAmount
      let outstanding := max 0 (due - paid)
      if outstanding ≤ 0 then allocGo model pol rest remaining
      else
        let applied := min outstanding remaining
        let s := allocGo model pol rest (remaining - applied)
        let bd :=
          if model = .equal then
            { s.breakdown with principal := s.breakdown.principal + applied }
          else
            let interestPart := orZero e.interest
            let ratio := applied / outstanding
            let appliedInterest := applyRounding (interestPart * ratio) pol
            let appliedPrincipal := applyRounding (applied - appliedInterest) pol
            { s.breakdown with
                principal := s.breakdown.principal + appliedPrincipal,
                interest := s.breakdown.interest + appliedInterest }
        ⟨⟨(e.month : ℤ), applied, max 0 (outstanding - applied)⟩ :: s.list, bd, s.remaining⟩

/-- The allocator's result record. -/
structure Allocation where
  total : ℚ
  appliedToMonths : List Applied
  breakdown : Breakdown
  deriving DecidableEq, Repr

/-- Function allocatePaymentToSchedule from `src/utils/finance.ts` (lines 83–128):
run the waterfall loop; if `remaining > 0` survives the whole schedule,
append the synthetic `month = -1` overpayment bucket, classified entirely as
principal. -/
def allocatePaymentToSchedule (schedule : List SEntry) (model : InterestModel)
    (amount : ℚ) (pol : RoundingPolicy := .nearest) : Allocation :=
  let s := allocGo model pol schedule amount
  if 0 < s.remaining then
    { total := amount
      appliedToMonths := s.list ++ [⟨-1, s.remaining, 0⟩]
      breakdown := { s.breakdown with principal := s.breakdown.principal + s.remaining } }
  else
    { total := amount, appliedToMonths := s.list, breakdown := s.breakdown }

/-- Function calculateRemainingBalance from `src/utils/finance.ts` (lines 143–163):
fold over the schedule, adding `max(0, amount − paidAmount)` for every entry
with `status === 'pending' || paid < amt`. -/
def calculateRemainingBalance (schedule : List SEntry) : ℚ :=
  schedule.foldl
    (fun sum e =>
      if e.status = .pending ∨ e.paidAmount < e.amount then
        sum + max 0 (e.amount - e.paidAmount)
      else sum)
    0

/-- The sum of per-entry outstanding amounts; `calculateRemainingBalance`
provably equals this (the status test is redundant because a fully paid
entry contributes `max 0 _ = 0` anyway). -/
def outstandingSum (schedule : List SEntry) : ℚ :=
  (schedule.map fun e => max 0 (e.amount - e.paidAmount)).sum

/-- Sum of the `applied` components of an allocation list. -/
def appliedSum (l : List Applied) : ℚ :=
  (l.map Applied.applied).sum

/-- The status/paid-date epsilon of the routes: `0.001` currency units. -/
def statusEps : ℚ := 1 / 1000

/-- The 2-decimal rounding quantum (one cent): per-entry rounded figures
differ from their exact values by at most this. -/
def roundingEps : ℚ := 1 / 100

/-- Update the element at an index of a list in place, leaving the list
unchanged when the index is out of range (as the routes do with
`if (!plan.installmentSchedule[idx]) ...`). -/
def updAt {α : Type} (f : α → α) : ℕ → List α → List α
  | _, [] => []
  | 0, e :: t => f e :: t
  | n + 1, e :: t => e :: updAt f n t

/-- Apply a (positive) payment amount to a schedule entry, as every payment
route does: `paidAmount += a`, and the entry is marked `paid` (only) when
`newPaid + 0.001 >= due`; otherwise the stored status is left alone. -/
def addPaidEntry (a : ℚ) (e : SEntry) : SEntry :=
  let newPaid := e.paidAmount + a
  { e with
      paidAmount := newPaid
      status := if e.amount ≤ newPaid + statusEps then .paid else e.status }

/-- Revert a payment amount on a schedule entry, as the payment delete flow
and the revert half of the edit flow do: `paidAmount = max(0, paid − a)`,
and the entry is downgraded to `pending` (only) when
`paid + 0.001 < amount`; otherwise the stored status is left alone. -/
def revertPaidEntry (a : ℚ) (e : SEntry) : SEntry :=
  let newPaid := max 0 (e.paidAmount - a)
  { e with
      paidAmount := newPaid
      status := if newPaid + statusEps < e.amount then .pending else e.status }

/-- The plan fields the payment mutations touch (`InstallmentPlan`):
the embedded ordered schedule and the cached `remainingBalance`, plus the
interest model and rounding policy the allocator is called with. -/
structure Plan where
  schedule : List SEntry
  remainingBalance : ℚ
  interestModel : InterestModel
  roundingPolicy : RoundingPolicy
  deriving DecidableEq, Repr

/-- Direct-to-month branch of the payment-create route: the caller names an
installment month; the whole amount is added to that single entry
(`entry.paidAmount = paidSoFar + amount`), and the cached balance becomes
`max(0, remainingBalance − amount)`.  `none` models the 400 error when the
month is not on the plan. -/
def applyDirectPayment (plan : Plan) (m : ℕ) (amount : ℚ) : Option Plan :=
  if m = 0 then none
  else if m - 1 < plan.schedule.length then
    some { plan with
             schedule := updAt (addPaidEntry amount) (m - 1) plan.schedule
             remainingBalance := max 0 (plan.remainingBalance - amount) }
  else none

/-- Write-back of an allocator result into the plan's schedule, exactly as
the waterfall branch of the payment-create route does: for each applied
record except the `month = -1` bucket, add the applied amount to the entry
at index `month − 1` (skipping indices not on the plan).  The `off`
parameter generalises the base index for the proofs; the route itself is
`applyAllocs 0`. -/
def applyAllocs (off : ℕ) (allocs : List Applied) (schedule : List SEntry) :
    List SEntry :=
  allocs.foldl
    (fun s a =>
      if a.month ≤ (off : ℤ) then s
      else updAt (addPaidEntry a.applied) (a.month.toNat - 1 - off) s)
    schedule

/-- Waterfall branch of the payment-create route: run the allocator on the
schedule, write the applied amounts back into the plan, and set the cached
balance to `max(0, remainingBalance − amount)`. -/
def applyWaterfallPayment (plan : Plan) (amount : ℚ) : Plan × Allocation :=
  let alloc := allocatePaymentToSchedule plan.schedule plan.interestModel amount
      plan.roundingPolicy
  ({ plan with
       schedule := applyAllocs 0 alloc.appliedToMonths plan.schedule
       remainingBalance := max 0 (plan.remainingBalance - amount) },
   alloc)

/-- Payment edit flow (PUT): revert the old amount on the old month (the
revert is silently skipped when the old index is missing), add the old
amount back to the cached balance, then apply the new amount to the new
month (a missing new month aborts with a 400, modelled as `none`).  The
route never subtracts the new amount from the cached balance. -/
def applyEditPayment (plan : Plan) (oldMonth : ℕ) (oldAmount : ℚ)
    (newMonth : ℕ) (newAmount : ℚ) : Option Plan :=
  if oldMonth = 0 then none
  else
    let s1 := updAt (revertPaidEntry oldAmount) (oldMonth - 1) plan.schedule
    let r1 := plan.remainingBalance + oldAmount
    if newMonth = 0 then none
    else if newMonth - 1 < s1.length then
      some { plan with
               schedule := updAt (addPaidEntry newAmount) (newMonth - 1) s1
               remainingBalance := r1 }
    else none

/-- Payment delete flow: for a direct-to-month payment, revert the amount on
its entry and add the amount back to the cached balance; an auto-allocated
payment (`month = 0`) leaves the plan untouched. -/
def applyDeletePayment (plan : Plan) (month : ℕ) (amount : ℚ) : Plan :=
  if month = 0 then plan
  else
    { plan with
        schedule := updAt (revertPaidEntry amount) (month - 1) plan.schedule
        remainingBalance := plan.remainingBalance + amount }

/-- One persistence-layer write performed by the payment-create route, in
the order the route awaits them. -/
inductive PEvent
  | savePlan (schedule : List SEntry) (remainingBalance : ℚ)
  | savePayment (amount : ℚ) (installmentMonth : ℕ) (receivedBy : ℕ)
  | creditUser (user : ℕ) (amount : ℚ)
  deriving DecidableEq, Repr

/-- Outcome of the payment-create route. -/
inductive CreateOutcome
  | created (plan' : Plan) (events : List PEvent)
  | duplicateSuppressed
  | rejected
  deriving DecidableEq, Repr

/-- The payment-create route of the payments router: validation
(`amount > 0`), the idempotency guard (a recent similar payment suppresses
creation), then the in-memory schedule mutation (direct or waterfall)
followed by the persistence sequence `plan.save()`, `payment.save()`,
`User.findByIdAndUpdate(receiver, { $inc: { cashBalance: amount } })` —
recorded as the event trace, in order. -/
def paymentCreate (plan : Plan) (installmentMonth : Option ℕ) (amount : ℚ)
    (receiver : ℕ) (duplicateRecent : Bool) : CreateOutcome :=
  if amount ≤ 0 then .rejected
  else if duplicateRecent then .duplicateSuppressed
  else
    match installmentMonth with
    | some m =>
      match applyDirectPayment plan m amount with
      | none => .rejected
      | some plan' =>
        .created plan'
          [.savePlan plan'.schedule plan'.remainingBalance,
           .savePayment amount m receiver,
           .creditUser receiver amount]
    | none =>
      let res := applyWaterfallPayment plan amount
      .created res.1
        [.savePlan res.1.schedule res.1.remainingBalance,
         .savePayment amount 0 receiver,
         .creditUser receiver amount]

/-- Mutate a user's balance: `$inc: { cashBalance: delta }` on a balance
vector indexed by user id (unknown ids are untouched, reads default to 0). -/
def updBal (bal : List ℚ) (u : ℕ) (delta : ℚ) : List ℚ :=
  bal.set u (bal.getD u 0 + delta)

/-- Guarded atomic decrement of `src/routes/cash.ts`:
`findOneAndUpdate({_id: u, cashBalance: {$gte: amount}}, {$inc: {cashBalance: -amount}})` —
a single conditional update that decrements only when the current balance
covers the amount, and reports failure otherwise. -/
def guardedDecrement (bal : List ℚ) (u : ℕ) (amount : ℚ) : Option (List ℚ) :=
  if amount ≤ bal.getD u 0 then some (bal.set u (bal.getD u 0 - amount))
  else none

/-- A persisted `CashTransfer` record. -/
structure TransferRec where
  fromUser : ℕ
  toUser : ℕ
  amount : ℚ
  deriving DecidableEq, Repr

/-- Outcome of the transfer route. -/
inductive TransferOutcome
  | rejectedInsufficient
  | failedCompensated
  | completed
  deriving DecidableEq, Repr

/-- State touched by the cash-transfer route: user balances and the
`CashTransfer` collection. -/
structure CashState where
  balances : List ℚ
  transfers : List TransferRec
  deriving DecidableEq, Repr

/-- POST `/cash/transfer` (`src/routes/cash.ts` lines 35–128): pre-check
`fromUser.cashBalance < amount` (clean rejection, nothing written), then the
guarded atomic decrement of the sender, then credit the recipient, then
persist the transfer record.  A failure of the credit or of the record save
(injected here as booleans) is compensated by crediting the sender back the
same amount; the compensating write itself is modelled as succeeding (its
failure is only logged by the source). -/
def cashTransfer (st : CashState) (fromU toU : ℕ) (amount : ℚ)
    (creditFails saveFails : Bool) : CashState × TransferOutcome :=
  if st.balances.getD fromU 0 < amount then (st, .rejectedInsufficient)
  else
    match guardedDecrement st.balances fromU amount with
    | none => (st, .rejectedInsufficient)
    | some b1 =>
      if creditFails then
        ({ st with balances := updBal b1 fromU amount }, .failedCompensated)
      else
        let b2 := updBal b1 toU amount
        if saveFails then
          ({ st with balances := updBal b2 fromU amount }, .failedCompensated)
        else
          ({ balances := b2, transfers := st.transfers ++ [⟨fromU, toU, amount⟩] },
           .completed)

/-- State of the sequential public-mutation-API machine: user cash balances,
the expense ledger (spender, amount) and the payment ledger
(receivedBy, amount).  Plan-schedule effects of payments are modelled
separately (`Plan`); this machine tracks the cash-balance effects. -/
structure Ledger where
  balances : List ℚ
  expenses : List (ℕ × ℚ)
  payments : List (ℕ × ℚ)
  deriving DecidableEq, Repr

/-- One operation of the public mutation API, referring to ledger records by
index where the route looks an existing record up by id. -/
inductive Op
  | transfer (fromU toU : ℕ) (amount : ℚ)
  | expenseCreate (u : ℕ) (amount : ℚ)
  | expenseEdit (idx : ℕ) (newAmount : ℚ)
  | expenseDelete (idx : ℕ)
  | payCreate (receiver : ℕ) (amount : ℚ)
  | payEdit (idx : ℕ) (newAmount : ℚ)
  | payDelete (idx : ℕ)
  deriving DecidableEq, Repr

/-- Sequential semantics of one successful-or-rejected API call; a rejected
call leaves the state unchanged.

* `transfer` — `src/routes/cash.ts`: amount validated (`min: 0.01`),
  balance pre-check, guarded decrement of the sender, credit the recipient.
* `expenseCreate` — `src/routes/expenses.ts` POST: amount validated
  (`gt: 0`), rejected when `user.cashBalance < amount`, else the spender is
  debited.
* `expenseEdit` — expenses PUT: for `diff = new − old > 0` the update is
  rejected when the balance does not cover `diff`; the balance moves by
  `−diff`.
* `expenseDelete` — expenses DELETE: refund the spender, drop the record.
* `payCreate` — payments POST: the receiving user is credited by the
  amount (plan-side effects are elsewhere).
* `payEdit` — payments PUT: the ledger record's amount is rewritten; no
  cash balance is touched (the PUT route performs no balance writes).
* `payDelete` — payments DELETE: the receiving user is debited by the
  payment amount unconditionally
  (`$inc: { cashBalance: -amount }`, no sufficient-funds guard). -/
def stepOp (st : Ledger) (op : Op) : Ledger :=
  match op with
  | .transfer fromU toU amount =>
    if amount < 1 / 100 then st
    else if st.balances.getD fromU 0 < amount then st
    else
      match guardedDecrement st.balances fromU amount with
      | none => st
      | some b1 => { st with balances := updBal b1 toU amount }
  | .expenseCreate u amount =>
    if amount ≤ 0 then st
    else if st.balances.getD u 0 < amount then st
    else
      { st with
          balances := updBal st.balances u (-amount)
          expenses := st.expenses ++ [(u, amount)] }
  | .expenseEdit idx newAmount =>
    if newAmount ≤ 0 then st
    else
      match st.expenses.get? idx with
      | none => st
      | some (u, oldAmount) =>
        let diff := newAmount - oldAmount
        if 0 < diff ∧ st.balances.getD u 0 < diff then st
        else
          { st with
              balances := updBal st.balances u (-diff)
              expenses := st.expenses.set idx (u, newAmount) }
  | .expenseDelete idx =>
    match st.expenses.get? idx with
    | none => st
    | some (u, amount) =>
      { st with
          balances := updBal st.balances u amount
          expenses := st.expenses.eraseIdx idx }
  | .payCreate receiver amount =>
    if amount ≤ 0 then st
    else
      { st with
          balances := updBal st.balances receiver amount
          payments := st.payments ++ [(receiver, amount)] }
  | .payEdit idx newAmount =>
    match st.payments.get? idx with
    | none => st
    | some (receiver, _) =>
      { st with payments := st.payments.set idx (receiver, newAmount) }
  | .payDelete idx =>
    match st.payments.get? idx with
    | none => st
    | some (receiver, amount) =>
      { st with
          balances := updBal st.balances receiver (-amount)
          payments := st.payments.eraseIdx idx }

/-- Run a sequence of API operations. -/
def runOps (st : Ledger) (ops : List Op) : Ledger :=
  ops.foldl stepOp st

/-- Discriminator for the payment-delete operation. -/
def Op.isPayDelete : Op → Bool
  | .payDelete _ => true
  | _ => false

/-- Sum of the (rounded, persisted) principal fields of a generated
schedule, reading absent fields as 0 as every consumer does. -/
def genPrincipalSum (l : List GenEntry) : ℚ :=
  (l.map fun e => orZero e.principal).sum

/-- The per-entry well-formedness the spec asserts for schedule entries:
a non-negative paid amount, and the persisted status equal to `paid`
exactly when `paidAmount ≥ amount − ε` (ε = 0.001). -/
def EntryInv (e : SEntry) : Prop :=
  0 ≤ e.paidAmount ∧ (e.status = .paid ↔ e.amount - statusEps ≤ e.paidAmount)

/-- Schedule months are canonical starting at `off`:
entry `i` carries month `off + i + 1` (plans are generated this way, months
`1..N` in order). -/
def canonMonths : ℕ → List SEntry → Prop
  | _, [] => True
  | off, e :: t => e.month = off + 1 ∧ canonMonths (off + 1) t

/-- Fused form of "run the allocator, then write the applied amounts back
into the schedule by month index": walk the schedule once, updating each
outstanding entry in place.  Proved equal to the route's
`applyAllocs 0 (allocatePaymentToSchedule …).appliedToMonths` on canonical
schedules; proofs about the waterfall write-back go through this form. -/
def fusedApply : List SEntry → ℚ → List SEntry
  | [], _ => []
  | e :: rest, remaining =>
    if remaining ≤ 0 then e :: rest
    else
      let outstanding := max 0 (e.amount - e.paidAmount)
      if outstanding ≤ 0 then e :: fusedApply rest remaining
      else
        addPaidEntry (min outstanding remaining) e ::
          fusedApply rest (remaining - min outstanding remaining)

/-- The invariant of the amortized loop relating the running balance to the
number of periods still to emit: with a zero monthly rate the balance is
`monthsLeft` nominal payments; with a positive rate it is the present value
of `monthsLeft` nominal payments (stated multiplicatively). -/
def AmortInv (nominal rm : ℚ) (k : ℕ) (b : ℚ) : Prop :=
  (rm = 0 ∧ 0 ≤ nominal ∧ b = k * nominal) ∨
  (0 < rm ∧ 0 < nominal ∧ b * rm * (1 + rm) ^ k = nominal * ((1 + rm) ^ k - 1))

/-!
### Theorems

General lemmas first, then one theorem (plus witness or counterexample) per
claim.
-/

@[simp]
theorem outstandingSum_nil : outstandingSum [] = 0 := rfl

@[simp]
theorem outstandingSum_cons (e : SEntry) (t : List SEntry) :
    outstandingSum (e :: t) = max 0 (e.amount - e.paidAmount) + outstandingSum t := by
  simp [outstandingSum]

theorem outstandingSum_nonneg (s : List SEntry) : 0 ≤ outstandingSum s := by
  induction s with
  | nil => simp
  | cons e t ih => simpa using add_nonneg (le_max_left _ _) ih

theorem calcRB_foldl (s : List SEntry) (a : ℚ) :
    List.foldl
      (fun sum e =>
        if e.status = .pending ∨ e.paidAmount < e.amount then
          sum + max 0 (e.amount - e.paidAmount)
        else sum)
      a s = a + outstandingSum s := by
  induction s generalizing a with
  | nil => simp
  | cons e t ih =>
    by_cases h : e.status = .pending ∨ e.paidAmount < e.amount
    · rw [List.foldl_cons, if_pos h, ih]
      simp; ring
    · rw [List.foldl_cons, if_neg h, ih]
      push_neg at h
      have hz : max 0 (e.amount - e.paidAmount) = 0 :=
        max_eq_left (by linarith [h.2])
      simp [hz]

/-- Lemma: the status test inside `calculateRemainingBalance` is redundant —
the recalculator computes exactly the sum of per-entry outstanding
amounts. -/
theorem calculateRemainingBalance_eq (s : List SEntry) :
    calculateRemainingBalance s = outstandingSum s := by
  unfold calculateRemainingBalance
  rw [calcRB_foldl]; simp

@[simp]
theorem appliedSum_nil : appliedSum [] = 0 := rfl

@[simp]
theorem appliedSum_cons (a : Applied) (l : List Applied) :
    appliedSum (a :: l) = a.applied + appliedSum l := by
  simp [appliedSum]

theorem appliedSum_append (l₁ l₂ : List Applied) :
    appliedSum (l₁ ++ l₂) = appliedSum l₁ + appliedSum l₂ := by
  simp [appliedSum]

theorem allocGo_nil (model : InterestModel) (pol : RoundingPolicy) (r : ℚ) :
    allocGo model pol [] r = ⟨[], ⟨0, 0, 0⟩, r⟩ := rfl

theorem allocGo_cons_stop (model : InterestModel) (pol : RoundingPolicy)
    (e : SEntry) (t : List SEntry) (r : ℚ) (hr : r ≤ 0) :
    allocGo model pol (e :: t) r = ⟨[], ⟨0, 0, 0⟩, r⟩ := by
  rw [allocGo]; simp [hr]

theorem allocGo_cons_skip (model : InterestModel) (pol : RoundingPolicy)
    (e : SEntry) (t : List SEntry) (r : ℚ) (hr : ¬ r ≤ 0)
    (h : max 0 (e.amount - e.paidAmount) ≤ 0) :
    allocGo model pol (e :: t) r = allocGo model pol t r := by
  rw [allocGo]; simp [hr, h]

theorem allocGo_list_apply (model : InterestModel) (pol : RoundingPolicy)
    (e : SEntry) (t : List SEntry) (r : ℚ) (hr : ¬ r ≤ 0)
    (h : ¬ max 0 (e.amount - e.paidAmount) ≤ 0) :
    (allocGo model pol (e :: t) r).list =
      ⟨(e.month : ℤ), min (max 0 (e.amount - e.paidAmount)) r,
        max 0 (max 0 (e.amount - e.paidAmount) - min (max 0 (e.amount - e.paidAmount)) r)⟩ ::
      (allocGo model pol t (r - min (max 0 (e.amount - e.paidAmount)) r)).list := by
  rw [allocGo]; simp [hr, h]

theorem allocGo_remaining_apply (model : InterestModel) (pol : RoundingPolicy)
    (e : SEntry) (t : List SEntry) (r : ℚ) (hr : ¬ r ≤ 0)
    (h : ¬ max 0 (e.amount - e.paidAmount) ≤ 0) :
    (allocGo model pol (e :: t) r).remaining =
      (allocGo model pol t (r - min (max 0 (e.amount - e.paidAmount)) r)).remaining := by
  rw [allocGo]; simp [hr, h]

/-- Lemma: the allocator loop conserves money — what it applies plus what is
left over is what came in. -/
theorem allocGo_conservation (model : InterestModel) (pol : RoundingPolicy) :
    ∀ (s : List SEntry) (r : ℚ),
      appliedSum (allocGo model pol s r).list + (allocGo model pol s r).remaining = r := by
  intro s
  induction s with
  | nil => intro r; simp [allocGo_nil]
  | cons e t ih =>
    intro r
    by_cases hr : r ≤ 0
    · rw [allocGo_cons_stop model pol e t r hr]; simp
    · by_cases h : max 0 (e.amount - e.paidAmount) ≤ 0
      · rw [allocGo_cons_skip model pol e t r hr h]; exact ih r
      · rw [allocGo_list_apply model pol e t r hr h,
            allocGo_remaining_apply model pol e t r hr h]
        have hrec := ih (r - min (max 0 (e.amount - e.paidAmount)) r)
        rw [appliedSum_cons]
        linarith

theorem allocGo_remaining_nonneg (model : InterestModel) (pol : RoundingPolicy) :
    ∀ (s : List SEntry) (r : ℚ), 0 ≤ r → 0 ≤ (allocGo model pol s r).remaining := by
  intro s
  induction s with
  | nil => intro r h; simpa [allocGo_nil] using h
  | cons e t ih =>
    intro r h
    by_cases hr : r ≤ 0
    · rw [allocGo_cons_stop model pol e t r hr]; exact h
    · by_cases ho : max 0 (e.amount - e.paidAmount) ≤ 0
      · rw [allocGo_cons_skip model pol e t r hr ho]; exact ih r h
      · rw [allocGo_remaining_apply model pol e t r hr ho]
        exact ih _ (by linarith [min_le_right (max 0 (e.amount - e.paidAmount)) r])

/-- C5.  For every schedule and every incoming amount `A > 0`, the waterfall
allocation conserves the payment: the applied amounts in
`appliedToMonths` — including the synthetic `month = -1` overpayment
bucket — sum to exactly `A`. -/
theorem C5_allocation_conservation (schedule : List SEntry)
    (model : InterestModel) (pol : RoundingPolicy) (A : ℚ) (hA : 0 < A) :
    appliedSum (allocatePaymentToSchedule schedule model A pol).appliedToMonths = A := by
  have hc := allocGo_conservation model pol schedule A
  have hn := allocGo_remaining_nonneg model pol schedule A hA.le
  unfold allocatePaymentToSchedule
  by_cases h : 0 < (allocGo model pol schedule A).remaining
  · simp only [h, if_pos]
    rw [appliedSum_append]
    simp only [appliedSum_cons, appliedSum_nil]
    linarith
  · simp only [h, if_neg, not_false_iff]
    have h0 : (allocGo model pol schedule A).remaining = 0 :=
      le_antisymm (not_lt.mp h) hn
    linarith

/-- Witness for C5 at a concrete input (spec example 4: two 500-entries,
payment 1300, 300 overpaid into the bucket). -/
theorem C5_allocation_conservation_witness :
    (0 : ℚ) < 1300 ∧
      appliedSum (allocatePaymentToSchedule
        [⟨1, 500, 0, .pending, none⟩, ⟨2, 500, 0, .pending, none⟩]
        .equal 1300 .nearest).appliedToMonths = 1300 :=
  ⟨by norm_num, C5_allocation_conservation _ _ _ _ (by norm_num)⟩

/-- Lemma: every record emitted by the allocator loop (the `month = -1`
bucket is added outside the loop) names the month of some schedule entry
that was strictly outstanding (`paidAmount < amount`). -/
theorem allocGo_mem (model : InterestModel) (pol : RoundingPolicy) :
    ∀ (s : List SEntry) (r : ℚ) (a : Applied), a ∈ (allocGo model pol s r).list →
      ∃ e ∈ s, a.month = (e.month : ℤ) ∧ e.paidAmount < e.amount := by
  intro s
  induction s with
  | nil => intro r a ha; simp [allocGo_nil] at ha
  | cons e t ih =>
    intro r a ha
    by_cases hr : r ≤ 0
    · rw [allocGo_cons_stop model pol e t r hr] at ha; simp at ha
    · by_cases ho : max 0 (e.amount - e.paidAmount) ≤ 0
      · rw [allocGo_cons_skip model pol e t r hr ho] at ha
        obtain ⟨e', he', hm⟩ := ih r a ha
        exact ⟨e', List.mem_cons_of_mem _ he', hm⟩
      · rw [allocGo_list_apply model pol e t r hr ho] at ha
        rcases List.mem_cons.mp ha with h | h
        · refine ⟨e, List.mem_cons_self _ _, ?_, ?_⟩
          · rw [h]
          · have : 0 < max 0 (e.amount - e.paidAmount) := lt_of_not_le ho
            rcases max_cases (0 : ℚ) (e.amount - e.paidAmount) with ⟨hm, _⟩ | ⟨hm, _⟩ <;>
              [skip; linarith [hm ▸ this]]
            · rw [hm] at this; linarith
        · obtain ⟨e', he', hm⟩ := ih _ a h
          exact ⟨e', List.mem_cons_of_mem _ he', hm⟩

/-- Lemma: entries whose paid amount already covers their amount are
skipped, so the first strictly outstanding entry heads the applied list with
exactly `min(outstanding, remaining)` applied. -/
theorem allocGo_head_shape (model : InterestModel) (pol : RoundingPolicy) :
    ∀ (pre : List SEntry) (e : SEntry) (post : List SEntry) (A : ℚ),
      (∀ e' ∈ pre, e'.amount ≤ e'.paidAmount) → e.paidAmount < e.amount → 0 < A →
      ∃ tl, (allocGo model pol (pre ++ e :: post) A).list =
        ⟨(e.month : ℤ), min (e.amount - e.paidAmount) A,
          max 0 ((e.amount - e.paidAmount) - min (e.amount - e.paidAmount) A)⟩ :: tl := by
  intro pre
  induction pre with
  | nil =>
    intro e post A _ he hA
    have hr : ¬ A ≤ 0 := not_le.mpr hA
    have ho : ¬ max 0 (e.amount - e.paidAmount) ≤ 0 := by
      rw [not_le]
      exact lt_max_of_lt_right (by linarith)
    rw [List.nil_append]
    rw [allocGo_list_apply model pol e post A hr ho]
    have hmax : max 0 (e.amount - e.paidAmount) = e.amount - e.paidAmount :=
      max_eq_right (by linarith)
    rw [hmax]
    exact ⟨_, rfl⟩
  | cons p pre' ih =>
    intro e post A hpre he hA
    have hr : ¬ A ≤ 0 := not_le.mpr hA
    have hp : p.amount ≤ p.paidAmount := hpre p (List.mem_cons_self _ _)
    have ho : max 0 (p.amount - p.paidAmount) ≤ 0 :=
      max_le le_rfl (by linarith)
    rw [List.cons_append, allocGo_cons_skip model pol p (pre' ++ e :: post) A hr ho]
    exact ih e post A (fun e' h => hpre e' (List.mem_cons_of_mem _ h)) he hA

/-- C8 (amended).  The waterfall allocator skips exactly the entries whose
`paidAmount` already covers their `amount` (there is no epsilon in the skip
test), and the first strictly outstanding entry after a fully-covered prefix
receives exactly `min(outstanding, remaining)`: every applied record other
than the `-1` bucket belongs to a strictly outstanding entry, and the head
of the applied list is the first outstanding entry with
`applied = min(outstanding, A)`. -/
theorem C8_waterfall_skip_and_min (model : InterestModel) (pol : RoundingPolicy)
    (pre post : List SEntry) (e : SEntry) (A : ℚ)
    (hpre : ∀ e' ∈ pre, e'.amount ≤ e'.paidAmount)
    (he : e.paidAmount < e.amount) (hA : 0 < A) :
    (∀ a ∈ (allocatePaymentToSchedule (pre ++ e :: post) model A pol).appliedToMonths,
        a.month = -1 ∨
          ∃ e' ∈ pre ++ e :: post, a.month = (e'.month : ℤ) ∧ e'.paidAmount < e'.amount) ∧
    (allocatePaymentToSchedule (pre ++ e :: post) model A pol).appliedToMonths.head? =
      some ⟨(e.month : ℤ), min (e.amount - e.paidAmount) A,
        max 0 ((e.amount - e.paidAmount) - min (e.amount - e.paidAmount) A)⟩ := by
  obtain ⟨tl, htl⟩ := allocGo_head_shape model pol pre e post A hpre he hA
  constructor
  · intro a ha
    unfold allocatePaymentToSchedule at ha
    by_cases h : 0 < (allocGo model pol (pre ++ e :: post) A).remaining
    · simp only [h, if_pos] at ha
      rcases List.mem_append.mp ha with h' | h'
      · exact Or.inr (allocGo_mem model pol _ A a h')
      · simp at h'
        subst h'
        exact Or.inl rfl
    · simp only [h, if_neg, not_false_iff] at ha
      exact Or.inr (allocGo_mem model pol _ A a ha)
  · unfold allocatePaymentToSchedule
    by_cases h : 0 < (allocGo model pol (pre ++ e :: post) A).remaining
    · simp only [h, if_pos]
      rw [htl, List.cons_append, List.head?_cons]
    · simp only [h, if_neg, not_false_iff]
      rw [htl, List.head?_cons]

/-- Counterexample to C8 as stated: an entry whose `paidAmount` is within
ε = 0.001 below its `amount` (99.9995 of 100) is NOT skipped — it receives a
0.0005 allocation, because the code's skip test is `outstanding ≤ 0` with no
epsilon. -/
theorem C8_waterfall_skip_counterexample :
    ((100 : ℚ) - statusEps ≤ 199999 / 2000) ∧
    (allocatePaymentToSchedule [⟨1, 100, 199999 / 2000, .pending, none⟩]
        .equal 50 .nearest).appliedToMonths.head? =
      some ⟨1, 1 / 2000, 0⟩ ∧
    (1 / 2000 : ℚ) ≠ 0 := by
  refine ⟨by norm_num [statusEps], ?_, by norm_num⟩
  norm_num [allocatePaymentToSchedule, allocGo]

theorem getD_nonneg (l : List ℚ) (u : ℕ) (h : ∀ b ∈ l, 0 ≤ b) :
    0 ≤ l.getD u 0 := by
  induction l generalizing u with
  | nil => simp
  | cons x xs ih =>
    cases u with
    | zero => simpa using h x (List.mem_cons_self _ _)
    | succ n =>
      simpa using ih n (fun b hb => h b (List.mem_cons_of_mem _ hb))

theorem mem_set_nonneg (l : List ℚ) (u : ℕ) (v : ℚ)
    (h : ∀ b ∈ l, 0 ≤ b) (hv : 0 ≤ v) : ∀ b ∈ l.set u v, 0 ≤ b := by
  intro b hb
  rcases List.mem_or_eq_of_mem_set hb with hb' | rfl
  · exact h b hb'
  · exact hv

theorem updBal_nonneg (l : List ℚ) (u : ℕ) (δ : ℚ)
    (h : ∀ b ∈ l, 0 ≤ b) (hδ : 0 ≤ l.getD u 0 + δ) :
    ∀ b ∈ updBal l u δ, 0 ≤ b :=
  mem_set_nonneg l u _ h hδ

/-- Lemma: every public-API operation other than a payment delete preserves
non-negative balances and strictly positive stored expense amounts. -/
theorem stepOp_preserves (st : Ledger) (op : Op) (hop : op.isPayDelete = false)
    (hb : ∀ b ∈ st.balances, 0 ≤ b) (he : ∀ p ∈ st.expenses, 0 < p.2) :
    (∀ b ∈ (stepOp st op).balances, 0 ≤ b) ∧
      (∀ p ∈ (stepOp st op).expenses, 0 < p.2) := by
  cases op with
  | transfer fromU toU amount =>
    simp only [stepOp]
    by_cases h1 : amount < 1 / 100
    · simp only [h1, if_pos]; exact ⟨hb, he⟩
    · simp only [h1, if_neg, not_false_iff]
      by_cases h2 : st.balances.getD fromU 0 < amount
      · simp only [h2, if_pos]; exact ⟨hb, he⟩
      · have hle : amount ≤ st.balances.getD fromU 0 := not_lt.mp h2
        simp only [h2, if_neg, not_false_iff, guardedDecrement, hle, if_pos]
        refine ⟨?_, he⟩
        have hb1 : ∀ b ∈ st.balances.set fromU (st.balances.getD fromU 0 - amount), 0 ≤ b :=
          mem_set_nonneg _ _ _ hb (by linarith)
        exact updBal_nonneg _ _ _ hb1
          (add_nonneg (getD_nonneg _ _ hb1) (by linarith [not_lt.mp h1]))
  | expenseCreate u amount =>
    simp only [stepOp]
    by_cases h1 : amount ≤ 0
    · simp only [h1, if_pos]; exact ⟨hb, he⟩
    · simp only [h1, if_neg, not_false_iff]
      by_cases h2 : st.balances.getD u 0 < amount
      · simp only [h2, if_pos]; exact ⟨hb, he⟩
      · simp only [h2, if_neg, not_false_iff]
        refine ⟨updBal_nonneg _ _ _ hb (by linarith [not_lt.mp h2]), ?_⟩
        intro p hp
        rcases List.mem_append.mp hp with hp' | hp'
        · exact he p hp'
        · simp at hp'
          subst hp'
          simpa using lt_of_not_le h1
  | expenseEdit idx newAmount =>
    simp only [stepOp]
    by_cases h1 : newAmount ≤ 0
    · simp only [h1, if_pos]; exact ⟨hb, he⟩
    · simp only [h1, if_neg, not_false_iff]
      cases hrec : st.expenses.get? idx with
      | none => exact ⟨hb, he⟩
      | some p =>
        obtain ⟨u, oldAmount⟩ := p
        simp only []
        by_cases h2 : 0 < newAmount - oldAmount ∧ st.balances.getD u 0 < newAmount - oldAmount
        · simp only [h2, if_pos]; exact ⟨hb, he⟩
        · simp only [h2, if_neg, not_false_iff]
          constructor
          · refine updBal_nonneg _ _ _ hb ?_
            by_cases hd : 0 < newAmount - oldAmount
            · have : ¬ st.balances.getD u 0 < newAmount - oldAmount := fun hc => h2 ⟨hd, hc⟩
              linarith [not_lt.mp this]
            · linarith [getD_nonneg st.balances u hb, not_lt.mp hd]
          · intro p hp
            rcases List.mem_or_eq_of_mem_set hp with hp' | rfl
            · exact he p hp'
            · simpa using lt_of_not_le h1
  | expenseDelete idx =>
    simp only [stepOp]
    cases hrec : st.expenses.get? idx with
    | none => exact ⟨hb, he⟩
    | some p =>
      obtain ⟨u, amount⟩ := p
      have hmem : (u, amount) ∈ st.expenses := List.get?_mem hrec
      have hpos : 0 < amount := he _ hmem
      refine ⟨updBal_nonneg _ _ _ hb (by linarith [getD_nonneg st.balances u hb]), ?_⟩
      intro p hp
      exact he p ((st.expenses.eraseIdx_sublist idx).subset hp)
  | payCreate receiver amount =>
    simp only [stepOp]
    by_cases h1 : amount ≤ 0
    · simp only [h1, if_pos]; exact ⟨hb, he⟩
    · simp only [h1, if_neg, not_false_iff]
      exact ⟨updBal_nonneg _ _ _ hb
        (by linarith [getD_nonneg st.balances receiver hb, lt_of_not_le h1]), he⟩
  | payEdit idx newAmount =>
    simp only [stepOp]
    cases hrec : st.payments.get? idx with
    | none => exact ⟨hb, he⟩
    | some p => obtain ⟨receiver, a⟩ := p; exact ⟨hb, he⟩
  | payDelete idx => simp [Op.isPayDelete] at hop

/-- Lemma: running any payment-delete-free sequence preserves the combined
invariant. -/
theorem runOps_preserves (ops : List Op) :
    ∀ (st : Ledger), (∀ op ∈ ops, op.isPayDelete = false) →
      (∀ b ∈ st.balances, 0 ≤ b) → (∀ p ∈ st.expenses, 0 < p.2) →
      (∀ b ∈ (runOps st ops).balances, 0 ≤ b) ∧
        (∀ p ∈ (runOps st ops).expenses, 0 < p.2) := by
  induction ops with
  | nil => intro st _ hb he; exact ⟨hb, he⟩
  | cons op ops ih =>
    intro st hops hb he
    have hstep := stepOp_preserves st op (hops op (List.mem_cons_self _ _)) hb he
    have := ih (stepOp st op) (fun o ho => hops o (List.mem_cons_of_mem _ ho))
      hstep.1 hstep.2
    simpa [runOps, List.foldl_cons] using this

/-- C2 (amended).  Along any sequence of public mutation-API operations that
contains no payment deletion, starting from non-negative balances (and
positive stored expense amounts), every user's cash balance stays
non-negative: transfers use the guarded conditional decrement, expense
creation/edit are gated on sufficient funds, expense deletion and payment
creation only credit, and payment edits touch no balance.  Payment deletion
must be excluded: it debits the receiving user unconditionally. -/
theorem C2_no_negative_balance_amended (st : Ledger) (ops : List Op)
    (hops : ∀ op ∈ ops, op.isPayDelete = false)
    (hb : ∀ b ∈ st.balances, 0 ≤ b) (he : ∀ p ∈ st.expenses, 0 < p.2) :
    ∀ b ∈ (runOps st ops).balances, 0 ≤ b :=
  (runOps_preserves ops st hops hb he).1

/-- Counterexample to C2 as stated: record a 100 payment to user 0 (balance
100), transfer the 100 to user 1 (balance 0), then delete the payment — the
unconditional `$inc: {cashBalance: -amount}` of the payment-delete route
leaves user 0 at −100. -/
theorem C2_no_negative_balance_counterexample :
    (runOps ⟨[0, 0], [], []⟩ [.payCreate 0 100]).balances = [100, 0] ∧
    (runOps ⟨[0, 0], [], []⟩ [.payCreate 0 100, .transfer 0 1 100]).balances = [0, 100] ∧
    (runOps ⟨[0, 0], [], []⟩
        [.payCreate 0 100, .transfer 0 1 100, .payDelete 0]).balances = [-100, 100] ∧
    ((-100 : ℚ) < 0) := by
  refine ⟨?_, ?_, ?_, by norm_num⟩ <;>
    norm_num [runOps, stepOp, updBal, guardedDecrement, List.getD]

/-- Witness for the amended C2 at a concrete input. -/
theorem C2_no_negative_balance_amended_witness :
    0 ≤ (runOps ⟨[5], [], []⟩ [.expenseCreate 0 3, .expenseDelete 0]).balances.getD 0 0 :=
  getD_nonneg _ 0
    (C2_no_negative_balance_amended ⟨[5], [], []⟩ [.expenseCreate 0 3, .expenseDelete 0]
      (by decide)
      (by intro b hb; fin_cases hb; norm_num)
      (by intro p hp; simp at hp))

/-- Lemma: refunding the amount just taken by the guarded decrement restores
the balance vector exactly. -/
theorem updBal_guard_refund (l : List ℚ) (u : ℕ) (a : ℚ) :
    updBal (l.set u (l.getD u 0 - a)) u a = l := by
  induction l generalizing u with
  | nil => rfl
  | cons x xs ih =>
    cases u with
    | zero => simp [updBal, List.getD]
    | succ n =>
      simp only [updBal, List.set, List.getD_cons_succ] at *
      exact congrArg (x :: ·) (ih n)

theorem getD_updBal_ne (l : List ℚ) (u w : ℕ) (a : ℚ) (h : w ≠ u) :
    (updBal l u a).getD w 0 = l.getD w 0 := by
  induction l generalizing u w with
  | nil => rfl
  | cons x xs ih =>
    cases u with
    | zero =>
      cases w with
      | zero => exact absurd rfl h
      | succ m => simp [updBal, List.getD]
    | succ n =>
      cases w with
      | zero => simp [updBal, List.getD]
      | succ m =>
        simp only [updBal, List.set, List.getD_cons_succ]
        exact ih n m (fun e => h (congrArg Nat.succ e))

theorem getD_set_self_lt (l : List ℚ) (u : ℕ) (v : ℚ) (h : u < l.length) :
    (l.set u v).getD u 0 = v := by
  induction l generalizing u with
  | nil => simp at h
  | cons x xs ih =>
    cases u with
    | zero => simp [List.getD]
    | succ n =>
      simp only [List.set, List.getD_cons_succ]
      exact ih n (by simpa using h)

theorem set_oob (l : List ℚ) (u : ℕ) (v : ℚ) (h : ¬ u < l.length) : l.set u v = l := by
  induction l generalizing u with
  | nil => rfl
  | cons x xs ih =>
    cases u with
    | zero => simp at h
    | succ n =>
      simp only [List.set]
      exact congrArg (x :: ·) (ih n (by simp at h; omega))

theorem getD_oob (l : List ℚ) (u : ℕ) (h : ¬ u < l.length) : l.getD u 0 = 0 := by
  induction l generalizing u with
  | nil => rfl
  | cons x xs ih =>
    cases u with
    | zero => simp at h
    | succ n =>
      simp only [List.getD_cons_succ]
      exact ih n (by simp at h; omega)

/-- C4.  For every cash transfer: an insufficient sender balance is rejected
cleanly before any write (state unchanged); a run that is not rejected had
the guard `cashBalance ≥ amount` hold (the decrement is the guarded
conditional update `guardedDecrement`); and if the recipient credit or the
record save fails after the decrement succeeded, the sender's balance is
restored to its original value and no transfer record persists. -/
theorem C4_transfer_protocol (st : CashState) (fromU toU : ℕ) (amount : ℚ)
    (creditFails saveFails : Bool) :
    (st.balances.getD fromU 0 < amount →
      cashTransfer st fromU toU amount creditFails saveFails = (st, .rejectedInsufficient)) ∧
    ((cashTransfer st fromU toU amount creditFails saveFails).2 ≠ .rejectedInsufficient →
      amount ≤ st.balances.getD fromU 0) ∧
    (fromU ≠ toU → amount ≤ st.balances.getD fromU 0 →
      (creditFails = true ∨ saveFails = true) →
      (cashTransfer st fromU toU amount creditFails saveFails).1.balances.getD fromU 0 =
          st.balances.getD fromU 0 ∧
        (cashTransfer st fromU toU amount creditFails saveFails).1.transfers = st.transfers) := by
  refine ⟨?_, ?_, ?_⟩
  · intro h
    unfold cashTransfer
    rw [if_pos h]
  · intro h
    by_cases h1 : st.balances.getD fromU 0 < amount
    · have heq : cashTransfer st fromU toU amount creditFails saveFails =
          (st, .rejectedInsufficient) := by
        unfold cashTransfer; rw [if_pos h1]
      rw [heq] at h
      simp at h
    · exact not_lt.mp h1
  · intro hne hle hfail
    have h1 : ¬ st.balances.getD fromU 0 < amount := not_lt.mpr hle
    simp only [cashTransfer, h1, if_neg, not_false_iff, guardedDecrement, hle, if_pos]
    rcases hfail with hc | hs
    · subst hc
      simp only [if_pos]
      constructor
      · rw [updBal_guard_refund]
      · trivial
    · subst hs
      cases creditFails with
      | true =>
        simp only [if_pos]
        constructor
        · rw [updBal_guard_refund]
        · trivial
      | false =>
        simp only [Bool.false_eq_true, if_neg, not_false_iff, if_pos]
        constructor
        · by_cases hl : fromU < st.balances.length
          · have hb2 : (updBal (st.balances.set fromU (st.balances.getD fromU 0 - amount))
                toU amount).getD fromU 0 = st.balances.getD fromU 0 - amount := by
              rw [getD_updBal_ne _ _ _ _ hne, getD_set_self_lt _ _ _ hl]
            rw [updBal, hb2, getD_set_self_lt]
            · ring
            · simpa [updBal] using hl
          · have h0 : st.balances.getD fromU 0 = 0 := getD_oob _ _ hl
            have hset : st.balances.set fromU (st.balances.getD fromU 0 - amount) =
                st.balances := set_oob _ _ _ hl
            rw [hset, h0]
            have hlen : ¬ fromU < (updBal st.balances toU amount).length := by
              simpa [updBal] using hl
            rw [updBal, set_oob _ _ _ hlen, getD_oob _ _ hlen]
        · trivial

/-- Witness for C4 at concrete inputs: spec example 5 (sender balance 50,
transfer 100, rejected with no state change) and a simulated credit failure
after a successful decrement (sender restored to 100, no record). -/
theorem C4_transfer_protocol_witness :
    cashTransfer ⟨[50, 0], []⟩ 0 1 100 false false = (⟨[50, 0], []⟩, .rejectedInsufficient) ∧
    ((cashTransfer ⟨[100, 0], []⟩ 0 1 60 true false).1.balances.getD 0 0 = (100 : ℚ) ∧
      (cashTransfer ⟨[100, 0], []⟩ 0 1 60 true false).1.transfers = []) :=
  ⟨(C4_transfer_protocol ⟨[50, 0], []⟩ 0 1 100 false false).1 (by norm_num [List.getD]),
   (C4_transfer_protocol ⟨[100, 0], []⟩ 0 1 60 true false).2.2
     (by norm_num) (by norm_num [List.getD]) (Or.inl rfl)⟩

/-- C1.  Every successful payment creation first computes the schedule
mutation in memory (the persisted schedule/balance are already the mutated
ones), then persists the plan (updated schedule and cached balance), then
persists the new Payment ledger record, and finally credits the receiving
user's cash balance by the payment amount — in exactly that order. -/
theorem C1_payment_persistence_order (plan : Plan) (installmentMonth : Option ℕ)
    (amount : ℚ) (receiver : ℕ) (dup : Bool) (plan' : Plan) (events : List PEvent)
    (h : paymentCreate plan installmentMonth amount receiver dup = .created plan' events) :
    events =
      [.savePlan plan'.schedule plan'.remainingBalance,
       .savePayment amount (installmentMonth.getD 0) receiver,
       .creditUser receiver amount] := by
  unfold paymentCreate at h
  by_cases h1 : amount ≤ 0
  · rw [if_pos h1] at h
    exact absurd h (by simp)
  · rw [if_neg h1] at h
    cases dup with
    | true => simp at h
    | false =>
      simp only [Bool.false_eq_true, if_neg, not_false_iff, if_false] at h
      cases installmentMonth with
      | none =>
        dsimp only [] at h
        rw [CreateOutcome.created.injEq] at h
        obtain ⟨rfl, rfl⟩ := h
        rfl
      | some m =>
        dsimp only [] at h
        cases hap : applyDirectPayment plan m amount with
        | none => rw [hap] at h; simp at h
        | some p' =>
          rw [hap] at h
          rw [CreateOutcome.created.injEq] at h
          obtain ⟨rfl, rfl⟩ := h
          rfl

/-- Witness for C1 at a concrete input: a direct-to-month payment of 40 on a
one-entry plan. -/
theorem C1_payment_persistence_order_witness :
    paymentCreate ⟨[⟨1, 100, 0, .pending, none⟩], 100, .equal, .nearest⟩
        (some 1) 40 7 false =
      .created ⟨[⟨1, 100, 40, .pending, none⟩], 60, .equal, .nearest⟩
        [.savePlan [⟨1, 100, 40, .pending, none⟩] 60,
         .savePayment 40 1 7, .creditUser 7 40] ∧
    [PEvent.savePlan [⟨1, 100, 40, .pending, none⟩] 60,
       .savePayment 40 1 7, .creditUser 7 40] =
      [.savePlan [⟨1, 100, 40, .pending, none⟩] 60,
       .savePayment 40 1 7, .creditUser 7 40] :=
  have hrun : paymentCreate ⟨[⟨1, 100, 0, .pending, none⟩], 100, .equal, .nearest⟩
      (some 1) 40 7 false =
      .created ⟨[⟨1, 100, 40, .pending, none⟩], 60, .equal, .nearest⟩
        [.savePlan [⟨1, 100, 40, .pending, none⟩] 60,
         .savePayment 40 1 7, .creditUser 7 40] := by
    norm_num [paymentCreate, applyDirectPayment, updAt, addPaidEntry, statusEps]
  ⟨hrun, C1_payment_persistence_order _ _ _ _ _ _ _ hrun⟩

@[simp]
theorem updAt_nil {α : Type} (f : α → α) (i : ℕ) : updAt f i [] = [] := by
  cases i <;> rfl

@[simp]
theorem updAt_zero_cons {α : Type} (f : α → α) (e : α) (t : List α) :
    updAt f 0 (e :: t) = f e :: t := rfl

@[simp]
theorem updAt_succ_cons {α : Type} (f : α → α) (n : ℕ) (e : α) (t : List α) :
    updAt f (n + 1) (e :: t) = e :: updAt f n t := rfl

@[simp]
theorem addPaidEntry_amount (a : ℚ) (e : SEntry) :
    (addPaidEntry a e).amount = e.amount := rfl

@[simp]
theorem addPaidEntry_paidAmount (a : ℚ) (e : SEntry) :
    (addPaidEntry a e).paidAmount = e.paidAmount + a := rfl

@[simp]
theorem addPaidEntry_month (a : ℚ) (e : SEntry) :
    (addPaidEntry a e).month = e.month := rfl

theorem addPaidEntry_status (a : ℚ) (e : SEntry) :
    (addPaidEntry a e).status =
      if e.amount ≤ e.paidAmount + a + statusEps then .paid else e.status := rfl

@[simp]
theorem revertPaidEntry_amount (a : ℚ) (e : SEntry) :
    (revertPaidEntry a e).amount = e.amount := rfl

@[simp]
theorem revertPaidEntry_paidAmount (a : ℚ) (e : SEntry) :
    (revertPaidEntry a e).paidAmount = max 0 (e.paidAmount - a) := rfl

@[simp]
theorem revertPaidEntry_month (a : ℚ) (e : SEntry) :
    (revertPaidEntry a e).month = e.month := rfl

theorem revertPaidEntry_status (a : ℚ) (e : SEntry) :
    (revertPaidEntry a e).status =
      if max 0 (e.paidAmount - a) + statusEps < e.amount then .pending else e.status := rfl

theorem mem_updAt {α : Type} (f : α → α) :
    ∀ (i : ℕ) (s : List α) (x : α), x ∈ updAt f i s →
      x ∈ s ∨ ∃ e, s.get? i = some e ∧ x = f e := by
  intro i
  induction i with
  | zero =>
    intro s x hx
    cases s with
    | nil => simp at hx
    | cons e t =>
      rcases List.mem_cons.mp hx with h | h
      · exact Or.inr ⟨e, rfl, h⟩
      · exact Or.inl (List.mem_cons_of_mem _ h)
  | succ n ih =>
    intro s x hx
    cases s with
    | nil => simp at hx
    | cons e t =>
      rcases List.mem_cons.mp hx with h | h
      · exact Or.inl (h ▸ List.mem_cons_self _ _)
      · rcases ih t x h with h' | ⟨e', he', hx'⟩
        · exact Or.inl (List.mem_cons_of_mem _ h')
        · exact Or.inr ⟨e', he', hx'⟩

theorem outstandingSum_updAt (f : SEntry → SEntry) :
    ∀ (i : ℕ) (s : List SEntry) (e : SEntry), s.get? i = some e →
      outstandingSum (updAt f i s) =
        outstandingSum s + max 0 ((f e).amount - (f e).paidAmount)
          - max 0 (e.amount - e.paidAmount) := by
  intro i
  induction i with
  | zero =>
    intro s e hget
    cases s with
    | nil => simp at hget
    | cons x t =>
      simp only [List.get?] at hget
      obtain rfl : x = e := by injection hget
      simp only [updAt_zero_cons, outstandingSum_cons]
      ring
  | succ n ih =>
    intro s e hget
    cases s with
    | nil => simp at hget
    | cons x t =>
      simp only [List.get?] at hget
      rw [updAt_succ_cons, outstandingSum_cons, outstandingSum_cons, ih t e hget]
      ring

theorem updAt_updAt_same {α : Type} (f g : α → α) :
    ∀ (i : ℕ) (s : List α), updAt g i (updAt f i s) = updAt (fun x => g (f x)) i s := by
  intro i
  induction i with
  | zero => intro s; cases s <;> rfl
  | succ n ih =>
    intro s
    cases s with
    | nil => rfl
    | cons x t => simp [ih t]

theorem updAt_eq_self {α : Type} (f : α → α) :
    ∀ (i : ℕ) (s : List α) (e : α), s.get? i = some e → f e = e → updAt f i s = s := by
  intro i
  induction i with
  | zero =>
    intro s e hget hf
    cases s with
    | nil => simp at hget
    | cons x t =>
      simp only [List.get?] at hget
      obtain rfl : x = e := by injection hget
      simp [hf]
  | succ n ih =>
    intro s e hget hf
    cases s with
    | nil => simp at hget
    | cons x t =>
      simp only [List.get?] at hget
      simp [ih t e hget hf]

theorem canonMonths_mem (off : ℕ) :
    ∀ (s : List SEntry), canonMonths off s → ∀ e ∈ s, off + 1 ≤ e.month := by
  intro s
  induction s generalizing off with
  | nil => intro _ e he; simp at he
  | cons x t ih =>
    intro hc e he
    obtain ⟨hx, ht⟩ := hc
    rcases List.mem_cons.mp he with rfl | h
    · omega
    · have := ih (off + 1) ht e h
      omega

/-- Lemma: every applied record the loop emits for a canonical schedule
names a month strictly above the offset. -/
theorem allocGo_months_lb (model : InterestModel) (pol : RoundingPolicy)
    (off : ℕ) (s : List SEntry) (r : ℚ) (hc : canonMonths off s) :
    ∀ a ∈ (allocGo model pol s r).list, (off : ℤ) + 1 ≤ a.month := by
  intro a ha
  obtain ⟨e, he, hm, _⟩ := allocGo_mem model pol s r a ha
  have := canonMonths_mem off s hc e he
  rw [hm]
  exact_mod_cast this

theorem applyAllocs_nil (off : ℕ) (s : List SEntry) : applyAllocs off [] s = s := rfl

theorem applyAllocs_cons (off : ℕ) (a : Applied) (l : List Applied) (s : List SEntry) :
    applyAllocs off (a :: l) s =
      applyAllocs off l
        (if a.month ≤ (off : ℤ) then s
         else updAt (addPaidEntry a.applied) (a.month.toNat - 1 - off) s) := rfl

/-- Lemma: allocations that target months at least `off + 2` (or are
skipped) leave the head entry alone and act on the tail with the offset
advanced by one. -/
theorem applyAllocs_shift (off : ℕ) :
    ∀ (l : List Applied) (e : SEntry) (t : List SEntry),
      (∀ a ∈ l, a.month ≤ (off : ℤ) ∨ ((off : ℤ) + 2 ≤ a.month)) →
      applyAllocs off l (e :: t) = e :: applyAllocs (off + 1) l t := by
  intro l
  induction l with
  | nil => intro e t _; rfl
  | cons a l ih =>
    intro e t hl
    rcases hl a (List.mem_cons_self _ _) with h | h
    · have hc1 : a.month ≤ ((off + 1 : ℕ) : ℤ) := by push_cast; omega
      rw [applyAllocs_cons, applyAllocs_cons, if_pos h, if_pos hc1]
      exact ih e t (fun a' ha' => hl a' (List.mem_cons_of_mem _ ha'))
    · have h1 : ¬ a.month ≤ (off : ℤ) := by omega
      have h2 : ¬ a.month ≤ ((off + 1 : ℕ) : ℤ) := by push_cast; omega
      rw [applyAllocs_cons, applyAllocs_cons, if_neg h1, if_neg h2]
      have hidx : a.month.toNat - 1 - off = (a.month.toNat - 1 - (off + 1)) + 1 := by omega
      rw [hidx, updAt_succ_cons]
      exact ih _ _ (fun a' ha' => hl a' (List.mem_cons_of_mem _ ha'))

/-- Lemma (FUSE): on a canonical schedule, running the allocator and writing
the applied list back by month index is the single fused pass
`fusedApply`. -/
theorem applyAllocs_allocGo (model : InterestModel) (pol : RoundingPolicy) :
    ∀ (s : List SEntry) (off : ℕ) (r : ℚ), canonMonths off s →
      applyAllocs off (allocGo model pol s r).list s = fusedApply s r := by
  intro s
  induction s with
  | nil => intro off r _; rw [allocGo_nil]; rfl
  | cons e t ih =>
    intro off r hc
    obtain ⟨hm, hct⟩ := hc
    by_cases hr : r ≤ 0
    · rw [allocGo_cons_stop model pol e t r hr, fusedApply, if_pos hr]
      rfl
    · by_cases ho : max 0 (e.amount - e.paidAmount) ≤ 0
      · rw [allocGo_cons_skip model pol e t r hr ho]
        have hmonths : ∀ a ∈ (allocGo model pol t r).list,
            a.month ≤ (off : ℤ) ∨ ((off : ℤ) + 2 ≤ a.month) := by
          intro a ha
          right
          have := allocGo_months_lb model pol (off + 1) t r hct a ha
          push_cast at this ⊢
          omega
        rw [applyAllocs_shift off _ e t hmonths, ih (off + 1) r hct]
        rw [fusedApply, if_neg hr]
        simp only [ho, if_pos]
      · rw [allocGo_list_apply model pol e t r hr ho]
        rw [applyAllocs_cons]
        have hnotskip : ¬ ((e.month : ℤ) ≤ (off : ℤ)) := by
          rw [hm]; push_cast; omega
        rw [if_neg hnotskip]
        have hidx : (e.month : ℤ).toNat - 1 - off = 0 := by
          rw [hm]; simp
        rw [hidx, updAt_zero_cons]
        have hmonths : ∀ a ∈ (allocGo model pol t
            (r - min (max 0 (e.amount - e.paidAmount)) r)).list,
            a.month ≤ (off : ℤ) ∨ ((off : ℤ) + 2 ≤ a.month) := by
          intro a ha
          right
          have := allocGo_months_lb model pol (off + 1) t _ hct a ha
          push_cast at this ⊢
          omega
        rw [applyAllocs_shift off _ _ t hmonths, ih (off + 1) _ hct]
        rw [fusedApply, if_neg hr]
        simp only [ho, if_neg, not_false_iff]

/-- Lemma: the fused pass and the allocator loop agree on the leftover
remaining amount. -/
theorem fusedApply_calc (model : InterestModel) (pol : RoundingPolicy) :
    ∀ (s : List SEntry) (r : ℚ), 0 ≤ r →
      outstandingSum (fusedApply s r) =
        outstandingSum s - (r - (allocGo model pol s r).remaining) := by
  intro s
  induction s with
  | nil => intro r _; rw [allocGo_nil]; simp [fusedApply]
  | cons e t ih =>
    intro r hr0
    by_cases hr : r ≤ 0
    · rw [fusedApply, if_pos hr, allocGo_cons_stop model pol e t r hr]
      simp
    · by_cases ho : max 0 (e.amount - e.paidAmount) ≤ 0
      · rw [fusedApply, if_neg hr]
        simp only [ho, if_pos]
        rw [allocGo_cons_skip model pol e t r hr ho,
          outstandingSum_cons, outstandingSum_cons, ih r hr0]
        ring
      · rw [fusedApply, if_neg hr]
        simp only [ho, if_neg, not_false_iff]
        rw [allocGo_remaining_apply model pol e t r hr ho,
          outstandingSum_cons, outstandingSum_cons]
        have hout : max 0 (e.amount - e.paidAmount) = e.amount - e.paidAmount := by
          rcases max_cases (0 : ℚ) (e.amount - e.paidAmount) with ⟨h1, _⟩ | ⟨h1, _⟩
          · exact absurd (le_of_eq h1) ho
          · exact h1
        have hmin : min (max 0 (e.amount - e.paidAmount)) r ≤ e.amount - e.paidAmount := by
          rw [hout] at *
          exact min_le_left _ _
        have hmin0 : 0 ≤ min (max 0 (e.amount - e.paidAmount)) r :=
          le_min (le_max_left _ _) (by linarith [not_le.mp hr])
        have hhead : max 0 ((addPaidEntry (min (max 0 (e.amount - e.paidAmount)) r) e).amount
              - (addPaidEntry (min (max 0 (e.amount - e.paidAmount)) r) e).paidAmount)
            = max 0 (e.amount - e.paidAmount) - min (max 0 (e.amount - e.paidAmount)) r := by
          simp only [addPaidEntry]
          rw [hout] at *
          rw [max_eq_right (by linarith)]
          ring
        rw [hhead, ih _ (by linarith [min_le_right (max 0 (e.amount - e.paidAmount)) r])]
        ring

/-- Lemma: when the loop exits with money left over, the whole outstanding
amount of the schedule was consumed. -/
theorem fusedApply_full (model : InterestModel) (pol : RoundingPolicy) :
    ∀ (s : List SEntry) (r : ℚ), 0 ≤ r → 0 < (allocGo model pol s r).remaining →
      outstandingSum s = r - (allocGo model pol s r).remaining := by
  intro s
  induction s with
  | nil => intro r _ _; rw [allocGo_nil]; simp
  | cons e t ih =>
    intro r hr0 hpos
    by_cases hr : r ≤ 0
    · rw [allocGo_cons_stop model pol e t r hr] at hpos ⊢
      simp at hpos ⊢
      linarith
    · by_cases ho : max 0 (e.amount - e.paidAmount) ≤ 0
      · rw [allocGo_cons_skip model pol e t r hr ho] at hpos ⊢
        rw [outstandingSum_cons, ih r hr0 hpos]
        have : max 0 (e.amount - e.paidAmount) = 0 :=
          le_antisymm ho (le_max_left _ _)
        rw [this]; ring
      · rw [allocGo_remaining_apply model pol e t r hr ho] at hpos ⊢
        have hrec := ih (r - min (max 0 (e.amount - e.paidAmount)) r)
          (by linarith [min_le_right (max 0 (e.amount - e.paidAmount)) r]) hpos
        have hfullhead : min (max 0 (e.amount - e.paidAmount)) r =
            max 0 (e.amount - e.paidAmount) := by
          rcases min_cases (max 0 (e.amount - e.paidAmount)) r with ⟨h1, _⟩ | ⟨h1, _⟩
          · exact h1
          · exfalso
            rw [h1, sub_self] at hpos
            have hz : (allocGo model pol t 0).remaining = 0 := by
              cases t with
              | nil => rw [allocGo_nil]
              | cons x xs => rw [allocGo_cons_stop model pol x xs 0 le_rfl]
            rw [hz] at hpos
            exact lt_irrefl 0 hpos
        rw [outstandingSum_cons, hrec, hfullhead]
        ring

theorem applyAllocs_append_skip (off : ℕ) (l : List Applied) (b : Applied)
    (s : List SEntry) (h : b.month ≤ (off : ℤ)) :
    applyAllocs off (l ++ [b]) s = applyAllocs off l s := by
  unfold applyAllocs
  rw [List.foldl_append]
  simp [h]

theorem outstandingSum_ge_term (s : List SEntry) (e : SEntry) (he : e ∈ s) :
    max 0 (e.amount - e.paidAmount) ≤ outstandingSum s := by
  induction s with
  | nil => simp at he
  | cons x t ih =>
    rcases List.mem_cons.mp he with rfl | h
    · rw [outstandingSum_cons]
      linarith [outstandingSum_nonneg t]
    · rw [outstandingSum_cons]
      linarith [ih h, le_max_left (0 : ℚ) (x.amount - x.paidAmount)]

/-- C3 (amended).  Starting from a plan whose cached balance agrees with the
recalculator, agreement is preserved exactly (hence within any epsilon) by:
a waterfall payment creation (unconditionally, for canonical months); a
direct-to-month creation whose amount does not exceed the target entry's
outstanding amount; and a deletion whose amount is covered by the entry's
paid amount on a non-overpaid entry.  After an edit the cached balance
exceeds the recalculated balance by exactly the new amount (the edit flow
adds the old amount back but never subtracts the new one), under the
corresponding no-clipping conditions. -/
theorem C3_recalculator_agreement_amended (plan : Plan) :
    (∀ A : ℚ, calculateRemainingBalance plan.schedule = plan.remainingBalance →
      0 < A → canonMonths 0 plan.schedule →
      calculateRemainingBalance (applyWaterfallPayment plan A).1.schedule =
        (applyWaterfallPayment plan A).1.remainingBalance) ∧
    (∀ (m : ℕ) (A : ℚ) (e : SEntry) (p' : Plan),
      calculateRemainingBalance plan.schedule = plan.remainingBalance →
      0 < A → plan.schedule.get? (m - 1) = some e →
      A ≤ e.amount - e.paidAmount →
      applyDirectPayment plan m A = some p' →
      calculateRemainingBalance p'.schedule = p'.remainingBalance) ∧
    (∀ (m : ℕ) (A : ℚ) (e : SEntry),
      calculateRemainingBalance plan.schedule = plan.remainingBalance →
      1 ≤ m → 0 < A → plan.schedule.get? (m - 1) = some e →
      A ≤ e.paidAmount → e.paidAmount ≤ e.amount →
      calculateRemainingBalance (applyDeletePayment plan m A).schedule =
        (applyDeletePayment plan m A).remainingBalance) ∧
    (∀ (oldM newM : ℕ) (oldA newA : ℚ) (eOld eNew : SEntry) (p' : Plan),
      calculateRemainingBalance plan.schedule = plan.remainingBalance →
      plan.schedule.get? (oldM - 1) = some eOld →
      0 ≤ oldA → oldA ≤ eOld.paidAmount → eOld.paidAmount ≤ eOld.amount →
      (updAt (revertPaidEntry oldA) (oldM - 1) plan.schedule).get? (newM - 1) = some eNew →
      0 ≤ newA → newA ≤ eNew.amount - eNew.paidAmount →
      applyEditPayment plan oldM oldA newM newA = some p' →
      p'.remainingBalance = calculateRemainingBalance p'.schedule + newA) := by
  obtain ⟨s, R, model, pol⟩ := plan
  refine ⟨?_, ?_, ?_, ?_⟩
  · -- waterfall creation
    intro A hsync hA hcanon
    simp only [applyWaterfallPayment] at *
    rw [calculateRemainingBalance_eq] at hsync ⊢
    have hwb : applyAllocs 0 (allocatePaymentToSchedule s model A pol).appliedToMonths s =
        fusedApply s A := by
      unfold allocatePaymentToSchedule
      by_cases h : 0 < (allocGo model pol s A).remaining
      · simp only [h, if_pos]
        rw [applyAllocs_append_skip 0 _ _ s (by norm_num)]
        exact applyAllocs_allocGo model pol s 0 A hcanon
      · simp only [h, if_neg, not_false_iff]
        exact applyAllocs_allocGo model pol s 0 A hcanon
    rw [hwb, fusedApply_calc model pol s A hA.le]
    have hn := allocGo_remaining_nonneg model pol s A hA.le
    by_cases h : 0 < (allocGo model pol s A).remaining
    · have hfull := fusedApply_full model pol s A hA.le h
      have : outstandingSum s - (A - (allocGo model pol s A).remaining) = 0 := by linarith
      rw [this, hsync.symm, hfull]
      have : (0 : ℚ) ⊔ (A - (allocGo model pol s A).remaining - A) = 0 :=
        max_eq_left (by linarith)
      rw [max_comm] at this
      simpa [max_comm] using this.symm
    · have h0 : (allocGo model pol s A).remaining = 0 := le_antisymm (not_lt.mp h) hn
      rw [h0]
      have hfnn : 0 ≤ outstandingSum s - (A - 0) := by
        have := fusedApply_calc model pol s A hA.le
        rw [h0] at this
        rw [← this]
        exact outstandingSum_nonneg _
      rw [← hsync]
      rw [max_eq_right (by linarith)]
      ring_nf
  · -- direct-to-month creation within the entry's outstanding amount
    intro m A e p' hsync hA hget hle happ
    dsimp only at hsync hget happ
    unfold applyDirectPayment at happ
    by_cases hm : m = 0
    · rw [if_pos hm] at happ; exact absurd happ (by simp)
    · rw [if_neg hm] at happ
      by_cases hlen : m - 1 < s.length
      · rw [if_pos hlen] at happ
        obtain rfl := Option.some.inj happ
        rw [calculateRemainingBalance_eq] at hsync ⊢
        dsimp only at hsync ⊢
        rw [outstandingSum_updAt (addPaidEntry A) (m - 1) s e hget]
        have hout : max 0 (e.amount - e.paidAmount) = e.amount - e.paidAmount :=
          max_eq_right (by linarith)
        have hout' : max 0 ((addPaidEntry A e).amount - (addPaidEntry A e).paidAmount) =
            e.amount - e.paidAmount - A := by
          rw [addPaidEntry_amount, addPaidEntry_paidAmount,
            max_eq_right (by linarith : (0 : ℚ) ≤ e.amount - (e.paidAmount + A))]
          ring
        have hterm := outstandingSum_ge_term s e (List.get?_mem hget)
        rw [hout, hout', ← hsync]
        rw [max_eq_right (by rw [hout] at hterm; linarith)]
        ring
      · rw [if_neg hlen] at happ; exact absurd happ (by simp)
  · -- deletion of a covered payment on a non-overpaid entry
    intro m A e hsync hm hA hget hle hbound
    dsimp only at hsync hget
    unfold applyDeletePayment
    rw [if_neg (by omega : ¬ m = 0)]
    rw [calculateRemainingBalance_eq] at hsync ⊢
    dsimp only at hsync ⊢
    rw [outstandingSum_updAt (revertPaidEntry A) (m - 1) s e hget]
    have hout : max 0 (e.amount - e.paidAmount) = e.amount - e.paidAmount :=
      max_eq_right (by linarith)
    have hout' : max 0 ((revertPaidEntry A e).amount - (revertPaidEntry A e).paidAmount) =
        e.amount - e.paidAmount + A := by
      rw [revertPaidEntry_amount, revertPaidEntry_paidAmount,
        max_eq_right (by linarith : (0 : ℚ) ≤ e.paidAmount - A),
        max_eq_right (by linarith : (0 : ℚ) ≤ e.amount - (e.paidAmount - A))]
      ring
    rw [hout, hout', ← hsync]
    ring
  · -- edit: the cached balance overshoots by the new amount
    intro oldM newM oldA newA eOld eNew p' hsync hgetOld h0old hleOld hboundOld hgetNew
      h0new hleNew happ
    dsimp only at hsync hgetOld hgetNew happ
    unfold applyEditPayment at happ
    by_cases hm : oldM = 0
    · rw [if_pos hm] at happ; exact absurd happ (by simp)
    · rw [if_neg hm] at happ
      by_cases hm2 : newM = 0
      · rw [if_pos hm2] at happ; exact absurd happ (by simp)
      · rw [if_neg hm2] at happ
        by_cases hlen : newM - 1 < (updAt (revertPaidEntry oldA) (oldM - 1) s).length
        · rw [if_pos hlen] at happ
          obtain rfl := Option.some.inj happ
          rw [calculateRemainingBalance_eq] at hsync ⊢
          dsimp only at hsync ⊢
          rw [outstandingSum_updAt (addPaidEntry newA) (newM - 1) _ eNew hgetNew,
            outstandingSum_updAt (revertPaidEntry oldA) (oldM - 1) s eOld hgetOld]
          have houtOld : max 0 (eOld.amount - eOld.paidAmount) =
              eOld.amount - eOld.paidAmount := max_eq_right (by linarith)
          have houtOld' : max 0 ((revertPaidEntry oldA eOld).amount -
              (revertPaidEntry oldA eOld).paidAmount) =
              eOld.amount - eOld.paidAmount + oldA := by
            rw [revertPaidEntry_amount, revertPaidEntry_paidAmount,
              max_eq_right (by linarith : (0 : ℚ) ≤ eOld.paidAmount - oldA),
              max_eq_right (by linarith : (0 : ℚ) ≤ eOld.amount - (eOld.paidAmount - oldA))]
            ring
          have houtNew : max 0 (eNew.amount - eNew.paidAmount) =
              eNew.amount - eNew.paidAmount := max_eq_right (by linarith)
          have houtNew' : max 0 ((addPaidEntry newA eNew).amount -
              (addPaidEntry newA eNew).paidAmount) =
              eNew.amount - eNew.paidAmount - newA := by
            rw [addPaidEntry_amount, addPaidEntry_paidAmount,
              max_eq_right (by linarith : (0 : ℚ) ≤ eNew.amount - (eNew.paidAmount + newA))]
            ring
          rw [houtOld, houtOld', houtNew, houtNew', ← hsync]
          ring
        · rw [if_neg hlen] at happ; exact absurd happ (by simp)

/-- Counterexample to C3 as stated: (i) a direct-to-month payment of 150 on
an entry with only 100 outstanding leaves the recalculator at 100 but the
cached balance at 50 — a drift of 50, far beyond ε; (ii) an edit that
re-applies the same 100 payment to the same month leaves the recalculator at
0 but the cached balance at 100, because the edit flow never subtracts the
new amount. -/
theorem C3_recalculator_agreement_counterexample :
    (applyDirectPayment
        ⟨[⟨1, 100, 0, .pending, none⟩, ⟨2, 100, 0, .pending, none⟩], 200, .equal, .nearest⟩
        1 150 =
      some ⟨[⟨1, 100, 150, .paid, none⟩, ⟨2, 100, 0, .pending, none⟩], 50, .equal, .nearest⟩) ∧
    calculateRemainingBalance [⟨1, 100, 150, .paid, none⟩, ⟨2, 100, 0, .pending, none⟩] = 100 ∧
    statusEps < 100 - 50 ∧
    (applyEditPayment ⟨[⟨1, 100, 100, .paid, none⟩], 0, .equal, .nearest⟩ 1 100 1 100 =
      some ⟨[⟨1, 100, 100, .paid, none⟩], 100, .equal, .nearest⟩) ∧
    calculateRemainingBalance [⟨1, 100, 100, .paid, none⟩] = 0 ∧
    statusEps < 100 - 0 := by
  refine ⟨?_, ?_, ?_, ?_, ?_, ?_⟩ <;>
    norm_num [applyDirectPayment, applyEditPayment, updAt, addPaidEntry, revertPaidEntry,
      calculateRemainingBalance, statusEps]

/-- Witness for the amended C3 at concrete inputs: a waterfall payment of
700 over two 500-entries (spec example 3), and a covered direct payment. -/
theorem C3_recalculator_agreement_amended_witness :
    calculateRemainingBalance
        (applyWaterfallPayment
          ⟨[⟨1, 500, 0, .pending, none⟩, ⟨2, 500, 0, .pending, none⟩], 1000, .equal, .nearest⟩
          700).1.schedule =
      (applyWaterfallPayment
        ⟨[⟨1, 500, 0, .pending, none⟩, ⟨2, 500, 0, .pending, none⟩], 1000, .equal, .nearest⟩
        700).1.remainingBalance :=
  (C3_recalculator_agreement_amended
      ⟨[⟨1, 500, 0, .pending, none⟩, ⟨2, 500, 0, .pending, none⟩], 1000, .equal, .nearest⟩).1
    700
    (by norm_num [calculateRemainingBalance])
    (by norm_num)
    (by norm_num [canonMonths])

/-- Lemma: applying a payment amount to an entry preserves the
status-derivation invariant and non-negativity. -/
theorem addPaidEntry_inv (e : SEntry) (a : ℚ) (ha : 0 ≤ a) (hinv : EntryInv e) :
    EntryInv (addPaidEntry a e) := by
  obtain ⟨hpos, hstat⟩ := hinv
  constructor
  · rw [addPaidEntry_paidAmount]; linarith
  · rw [addPaidEntry_status, addPaidEntry_amount, addPaidEntry_paidAmount]
    by_cases hif : e.amount ≤ e.paidAmount + a + statusEps
    · rw [if_pos hif]
      constructor
      · intro _; linarith
      · intro _; rfl
    · rw [if_neg hif]
      constructor
      · intro hp
        have := hstat.mp hp
        linarith
      · intro hle
        exact absurd (by linarith) hif

/-- Lemma: reverting a payment amount from an entry preserves the
status-derivation invariant and non-negativity. -/
theorem revertPaidEntry_inv (e : SEntry) (a : ℚ) (ha : 0 ≤ a) (hinv : EntryInv e) :
    EntryInv (revertPaidEntry a e) := by
  obtain ⟨hpos, hstat⟩ := hinv
  constructor
  · rw [revertPaidEntry_paidAmount]; exact le_max_left _ _
  · rw [revertPaidEntry_status, revertPaidEntry_amount, revertPaidEntry_paidAmount]
    by_cases hif : max 0 (e.paidAmount - a) + statusEps < e.amount
    · rw [if_pos hif]
      constructor
      · intro hp; exact absurd hp (by simp)
      · intro hle; linarith
    · rw [if_neg hif]
      have hle' : e.amount - statusEps ≤ max 0 (e.paidAmount - a) := by linarith [not_lt.mp hif]
      have hmax : max 0 (e.paidAmount - a) ≤ e.paidAmount :=
        max_le hpos (by linarith)
      constructor
      · intro _; exact hle'.trans (le_refl _)
      · intro _; exact hstat.mpr (by linarith)

/-- Lemma: the waterfall write-back on a canonical schedule is the fused
pass. -/
theorem waterfall_schedule_eq_fused (plan : Plan) (A : ℚ)
    (hcanon : canonMonths 0 plan.schedule) :
    (applyWaterfallPayment plan A).1.schedule = fusedApply plan.schedule A := by
  simp only [applyWaterfallPayment]
  unfold allocatePaymentToSchedule
  by_cases h : 0 < (allocGo plan.interestModel plan.roundingPolicy plan.schedule A).remaining
  · simp only [h, if_pos]
    rw [applyAllocs_append_skip 0 _ _ plan.schedule (by norm_num)]
    exact applyAllocs_allocGo _ _ plan.schedule 0 A hcanon
  · simp only [h, if_neg, not_false_iff]
    exact applyAllocs_allocGo _ _ plan.schedule 0 A hcanon

/-- Lemma: the fused waterfall pass keeps every entry invariant-satisfying
and below its amount. -/
theorem fusedApply_inv :
    ∀ (s : List SEntry) (r : ℚ),
      (∀ e ∈ s, EntryInv e ∧ e.paidAmount ≤ e.amount) →
      ∀ e' ∈ fusedApply s r, EntryInv e' ∧ e'.paidAmount ≤ e'.amount := by
  intro s
  induction s with
  | nil => intro r _ e' he'; simp [fusedApply] at he'
  | cons e t ih =>
    intro r hs e' he'
    by_cases hr : r ≤ 0
    · rw [fusedApply, if_pos hr] at he'
      exact hs e' he'
    · by_cases ho : max 0 (e.amount - e.paidAmount) ≤ 0
      · rw [fusedApply, if_neg hr] at he'
        simp only [ho, if_pos] at he'
        rcases List.mem_cons.mp he' with rfl | h
        · exact hs e' (List.mem_cons_self _ _)
        · exact ih r (fun x hx => hs x (List.mem_cons_of_mem _ hx)) e' h
      · rw [fusedApply, if_neg hr] at he'
        simp only [ho, if_neg, not_false_iff] at he'
        have hout : max 0 (e.amount - e.paidAmount) = e.amount - e.paidAmount := by
          rcases max_cases (0 : ℚ) (e.amount - e.paidAmount) with ⟨h1, _⟩ | ⟨h1, _⟩
          · exact absurd (le_of_eq h1) ho
          · exact h1
        have hmin0 : 0 ≤ min (max 0 (e.amount - e.paidAmount)) r :=
          le_min (le_max_left _ _) (le_of_not_le hr)
        rcases List.mem_cons.mp he' with rfl | h
        · obtain ⟨hinv, hb⟩ := hs e (List.mem_cons_self _ _)
          refine ⟨addPaidEntry_inv e _ hmin0 hinv, ?_⟩
          rw [addPaidEntry_paidAmount, addPaidEntry_amount, hout]
          linarith [min_le_left (e.amount - e.paidAmount) r]
        · exact ih _ (fun x hx => hs x (List.mem_cons_of_mem _ hx)) e' h

/-- C9 (amended).  Well-formedness of schedule entries under the payment
mutations: every entry keeps `0 ≤ paidAmount` and the derived-status
invariant (`status = paid ↔ paidAmount ≥ amount − ε`) across waterfall,
direct, edit and delete mutations; and the waterfall additionally keeps
`paidAmount ≤ amount`.  The upper bound `paidAmount ≤ amount + ε` does NOT
survive a direct-to-month overpayment (see the counterexample), so it is
asserted here only for the waterfall path. -/
theorem C9_entry_bounds_amended (plan : Plan) :
    (∀ A : ℚ, canonMonths 0 plan.schedule →
      (∀ e ∈ plan.schedule, EntryInv e ∧ e.paidAmount ≤ e.amount) →
      ∀ e' ∈ (applyWaterfallPayment plan A).1.schedule,
        EntryInv e' ∧ e'.paidAmount ≤ e'.amount) ∧
    (∀ (m : ℕ) (A : ℚ) (p' : Plan), 0 ≤ A →
      (∀ e ∈ plan.schedule, EntryInv e) →
      applyDirectPayment plan m A = some p' →
      ∀ e' ∈ p'.schedule, EntryInv e') ∧
    (∀ (oldM newM : ℕ) (oldA newA : ℚ) (p' : Plan), 0 ≤ oldA → 0 ≤ newA →
      (∀ e ∈ plan.schedule, EntryInv e) →
      applyEditPayment plan oldM oldA newM newA = some p' →
      ∀ e' ∈ p'.schedule, EntryInv e') ∧
    (∀ (m : ℕ) (A : ℚ), 0 ≤ A →
      (∀ e ∈ plan.schedule, EntryInv e) →
      ∀ e' ∈ (applyDeletePayment plan m A).schedule, EntryInv e') := by
  refine ⟨?_, ?_, ?_, ?_⟩
  · intro A hcanon hs e' he'
    rw [waterfall_schedule_eq_fused plan A hcanon] at he'
    exact fusedApply_inv plan.schedule A hs e' he'
  · intro m A p' hA hs happ e' he'
    unfold applyDirectPayment at happ
    by_cases hm : m = 0
    · rw [if_pos hm] at happ; exact absurd happ (by simp)
    · rw [if_neg hm] at happ
      by_cases hlen : m - 1 < plan.schedule.length
      · rw [if_pos hlen] at happ
        obtain rfl := Option.some.inj happ
        dsimp only at he'
        rcases mem_updAt (addPaidEntry A) (m - 1) plan.schedule e' he' with h | ⟨e, hget, rfl⟩
        · exact hs e' h
        · exact addPaidEntry_inv e A hA (hs e (List.get?_mem hget))
      · rw [if_neg hlen] at happ; exact absurd happ (by simp)
  · intro oldM newM oldA newA p' hold hnew hs happ e' he'
    unfold applyEditPayment at happ
    by_cases hm : oldM = 0
    · rw [if_pos hm] at happ; exact absurd happ (by simp)
    · rw [if_neg hm] at happ
      by_cases hm2 : newM = 0
      · rw [if_pos hm2] at happ; exact absurd happ (by simp)
      · rw [if_neg hm2] at happ
        by_cases hlen : newM - 1 < (updAt (revertPaidEntry oldA) (oldM - 1) plan.schedule).length
        · rw [if_pos hlen] at happ
          obtain rfl := Option.some.inj happ
          dsimp only at he'
          have hs1 : ∀ x ∈ updAt (revertPaidEntry oldA) (oldM - 1) plan.schedule, EntryInv x := by
            intro x hx
            rcases mem_updAt (revertPaidEntry oldA) (oldM - 1) plan.schedule x hx with
              h | ⟨e, hget, rfl⟩
            · exact hs x h
            · exact revertPaidEntry_inv e oldA hold (hs e (List.get?_mem hget))
          rcases mem_updAt (addPaidEntry newA) (newM - 1) _ e' he' with h | ⟨e, hget, rfl⟩
          · exact hs1 e' h
          · exact addPaidEntry_inv e newA hnew (hs1 e (List.get?_mem hget))
        · rw [if_neg hlen] at happ; exact absurd happ (by simp)
  · intro m A hA hs e' he'
    unfold applyDeletePayment at he'
    by_cases hm : m = 0
    · rw [if_pos hm] at he'; exact hs e' he'
    · rw [if_neg hm] at he'
      dsimp only at he'
      rcases mem_updAt (revertPaidEntry A) (m - 1) plan.schedule e' he' with h | ⟨e, hget, rfl⟩
      · exact hs e' h
      · exact revertPaidEntry_inv e A hA (hs e (List.get?_mem hget))

/-- Counterexample to C9 as stated: a direct-to-month payment of 150 on an
entry with amount 100 and nothing paid leaves `paidAmount = 150`, violating
`paidAmount ≤ amount + ε` — the claim asserted the bound held even for such
overpayments. -/
theorem C9_entry_bounds_counterexample :
    applyDirectPayment ⟨[⟨1, 100, 0, .pending, none⟩], 100, .equal, .nearest⟩ 1 150 =
      some ⟨[⟨1, 100, 150, .paid, none⟩], 0, .equal, .nearest⟩ ∧
    ¬ ((150 : ℚ) ≤ 100 + statusEps) := by
  constructor
  · norm_num [applyDirectPayment, updAt, addPaidEntry, statusEps]
  · norm_num [statusEps]

/-- Witness for the amended C9 at a concrete input: the direct part applied
to a covered payment. -/
theorem C9_entry_bounds_amended_witness :
    EntryInv ⟨1, 100, 40, .pending, none⟩ :=
  (C9_entry_bounds_amended ⟨[⟨1, 100, 0, .pending, none⟩], 100, .equal, .nearest⟩).2.1
    1 40 ⟨[⟨1, 100, 40, .pending, none⟩], 60, .equal, .nearest⟩
    (by norm_num)
    (by
      intro e he
      simp only [List.mem_singleton] at he
      subst he
      constructor
      · norm_num
      · exact ⟨fun h => by simp at h, fun h => by norm_num [statusEps] at h⟩)
    (by norm_num [applyDirectPayment, updAt, addPaidEntry, statusEps])
    ⟨1, 100, 40, .pending, none⟩ (List.mem_singleton.mpr rfl)

/-- Lemma: deleting a payment exactly reverses applying it on the target
entry, provided the entry satisfies the derived-status invariant and its
persisted status is one of the engine-written values. -/
theorem revert_addPaid (e : SEntry) (A : ℚ) (hA : 0 < A) (hinv : EntryInv e)
    (hst : e.status ≠ .overdue) :
    revertPaidEntry A (addPaidEntry A e) = e := by
  obtain ⟨hpos, hstat⟩ := hinv
  obtain ⟨mo, amt, paid, stt, intr⟩ := e
  simp only [revertPaidEntry, addPaidEntry] at *
  have hpaid : max 0 (paid + A - A) = paid := by
    rw [max_eq_right (by linarith)]; ring
  rw [SEntry.mk.injEq]
  refine ⟨rfl, rfl, by rw [hpaid], ?_, rfl⟩
  by_cases hif : max 0 (paid + A - A) + statusEps < amt
  · rw [if_pos hif]
    rw [hpaid] at hif
    have : ¬ (stt = .paid) := fun hp => by
      have := hstat.mp hp
      simp only at this
      linarith
    cases stt with
    | pending => rfl
    | paid => exact absurd rfl this
    | overdue => exact absurd rfl hst
  · rw [if_neg hif]
    rw [hpaid] at hif
    have hge : amt - statusEps ≤ paid := by linarith [not_lt.mp hif]
    have hstt : stt = .paid := hstat.mpr (by simpa using hge)
    rw [if_pos (by linarith : amt ≤ paid + A + statusEps)]
    exact hstt.symm

/-- C10 (amended).  Applying a direct-to-month payment and then running the
delete-flow reversal restores the original plan exactly, provided the cached
balance covers the payment (`remainingBalance ≥ amount` — otherwise the
`max(0, ·)` clamp in the create flow loses the difference) and the target
entry satisfies the derived-status invariant with an engine-written
status. -/
theorem C10_payment_reversal_amended (plan p' : Plan) (m : ℕ) (A : ℚ) (e : SEntry)
    (hm : 1 ≤ m) (hget : plan.schedule.get? (m - 1) = some e)
    (hinv : EntryInv e) (hst : e.status ≠ .overdue) (hA : 0 < A)
    (hR : A ≤ plan.remainingBalance)
    (happ : applyDirectPayment plan m A = some p') :
    applyDeletePayment p' m A = plan := by
  obtain ⟨s, R, model, pol⟩ := plan
  dsimp only at hget hR
  unfold applyDirectPayment at happ
  rw [if_neg (by omega : ¬ m = 0)] at happ
  by_cases hlen : m - 1 < s.length
  · rw [if_pos hlen] at happ
    obtain rfl := Option.some.inj happ
    unfold applyDeletePayment
    rw [if_neg (by omega : ¬ m = 0)]
    dsimp only
    rw [Plan.mk.injEq]
    refine ⟨?_, ?_, rfl, rfl⟩
    · rw [updAt_updAt_same]
      exact updAt_eq_self _ (m - 1) s e hget (revert_addPaid e A hA hinv hst)
    · rw [max_eq_right (by linarith)]
      ring
  · rw [if_neg hlen] at happ; exact absurd happ (by simp)

/-- Counterexample to C10 as stated: on a plan whose cached balance is
already 0 (drifted), applying a 100 payment and deleting it restores the
schedule entry but leaves the cached balance at 100, not 0 — the
`max(0, remainingBalance − amount)` clamp makes the round trip
non-reversing. -/
theorem C10_payment_reversal_counterexample :
    applyDirectPayment ⟨[⟨1, 100, 0, .pending, none⟩], 0, .equal, .nearest⟩ 1 100 =
      some ⟨[⟨1, 100, 100, .paid, none⟩], 0, .equal, .nearest⟩ ∧
    applyDeletePayment ⟨[⟨1, 100, 100, .paid, none⟩], 0, .equal, .nearest⟩ 1 100 =
      ⟨[⟨1, 100, 0, .pending, none⟩], 100, .equal, .nearest⟩ ∧
    (100 : ℚ) ≠ 0 := by
  refine ⟨?_, ?_, by norm_num⟩ <;>
    norm_num [applyDirectPayment, applyDeletePayment, updAt, addPaidEntry,
      revertPaidEntry, statusEps]

/-- Witness for the amended C10 at a concrete input with sufficient cached
balance. -/
theorem C10_payment_reversal_amended_witness :
    applyDeletePayment ⟨[⟨1, 100, 40, .pending, none⟩], 60, .equal, .nearest⟩ 1 40 =
      ⟨[⟨1, 100, 0, .pending, none⟩], 100, .equal, .nearest⟩ :=
  C10_payment_reversal_amended
    ⟨[⟨1, 100, 0, .pending, none⟩], 100, .equal, .nearest⟩
    ⟨[⟨1, 100, 40, .pending, none⟩], 60, .equal, .nearest⟩
    1 40 ⟨1, 100, 0, .pending, none⟩
    le_rfl rfl
    (by constructor
        · norm_num
        · exact ⟨fun h => by simp at h, fun h => by norm_num [statusEps] at h⟩)
    (by simp) (by norm_num)
    (by norm_num)
    (by norm_num [applyDirectPayment, updAt, addPaidEntry, statusEps])

theorem getLast?_cons_of_some {α : Type} (e : α) (l : List α) (x : α)
    (h : l.getLast? = some x) : (e :: l).getLast? = some x := by
  cases l with
  | nil => simp at h
  | cons a t => rw [List.getLast?_cons_cons]; exact h

/-- Lemma: the amortized loop always ends with internal balance exactly 0,
and its last entry is built from the balance entering the last period: the
principal portion is overridden to that whole balance and the amount is the
rounded true-up `balance + interest`. -/
theorem amortGo_last (nominal rm : ℚ) (pol : RoundingPolicy) :
    ∀ (k : ℕ), 1 ≤ k → ∀ (m : ℕ) (b : ℚ),
      (amortGo nominal rm pol k m b).2 = 0 ∧
      (amortGo nominal rm pol k m b).1.getLast? = some
        ⟨m + k - 1,
         applyRounding (amortLastBalance nominal rm k b +
           (if rm = 0 then 0 else amortLastBalance nominal rm k b * rm)) pol,
         some (applyRounding (amortLastBalance nominal rm k b) pol),
         some (applyRounding
           (if rm = 0 then 0 else amortLastBalance nominal rm k b * rm) pol)⟩ := by
  intro k
  induction k with
  | zero => intro h; omega
  | succ n ih =>
    intro _ m b
    cases n with
    | zero =>
      constructor
      · show max 0 (b - b) = 0
        simp
      · simp only [amortGo, amortLastBalance, List.getLast?_singleton]
        norm_num
    | succ n' =>
      have ihh := ih (by omega) (m + 1)
        (max 0 (b - (nominal - (if rm = 0 then 0 else b * rm))))
      constructor
      · exact ihh.1
      · have hbal : amortLastBalance nominal rm (n' + 1 + 1) b =
            amortLastBalance nominal rm (n' + 1)
              (max 0 (b - (nominal - (if rm = 0 then 0 else b * rm)))) := rfl
        have hmonth : m + 1 + (n' + 1) - 1 = m + (n' + 1 + 1) - 1 := by omega
        refine getLast?_cons_of_some _ _ _ ?_
        rw [hbal, ← hmonth]
        exact ihh.2

/-- C6 (amended).  For every P > 0, N ≥ 1 and rate, the amortized schedule's
last entry carries amount `applyRounding(B + interest(B))` where `B` is the
internal balance entering the last period — the rounded true-up, not the
nominal annuity figure — with principal portion `applyRounding(B)`; and the
generator's internal running balance (which uses the unrounded principal
portions, the last being the full remaining balance) ends at exactly 0.  The
persisted rounded principal fields need not telescope the balance to exactly
0 (see the counterexample); they retire P only within N × the rounding
quantum (claim C7). -/
theorem C6_amortized_true_up_amended (P r : ℚ) (N : ℕ) (pol : RoundingPolicy)
    (hP : 0 < P) (hN : 1 ≤ N) :
    (generateSchedule P r N pol .amortized).getLast? = some
      ⟨N,
       applyRounding (amortLastBalance (amortizedMonthlyPayment P r N) (r / 100 / 12) N P +
         (if r / 100 / 12 = 0 then 0
          else amortLastBalance (amortizedMonthlyPayment P r N) (r / 100 / 12) N P *
            (r / 100 / 12))) pol,
       some (applyRounding
         (amortLastBalance (amortizedMonthlyPayment P r N) (r / 100 / 12) N P) pol),
       some (applyRounding
         (if r / 100 / 12 = 0 then 0
          else amortLastBalance (amortizedMonthlyPayment P r N) (r / 100 / 12) N P *
            (r / 100 / 12)) pol)⟩ ∧
    (amortGo (amortizedMonthlyPayment P r N) (r / 100 / 12) pol N 1 P).2 = 0 := by
  have hlast := amortGo_last (amortizedMonthlyPayment P r N) (r / 100 / 12) pol N hN 1 P
  constructor
  · unfold generateSchedule
    rw [if_neg (by push_neg; exact ⟨by omega, by linarith⟩)]
    dsimp only
    have h2 := hlast.2
    rw [(by omega : 1 + N - 1 = N)] at h2
    exact h2
  · exact hlast.1

/-- Counterexample to C6 as stated: for P = 100, r = 0, N = 3 under
round-half-up, the three persisted principal portions are 33.33 each; they
sum to 99.99, so applying the entries' principal portions in order leaves a
running balance of 0.01 — not exactly 0 — despite the last-entry true-up. -/
theorem C6_amortized_true_up_counterexample :
    (generateSchedule 100 0 3 .nearest .amortized).map (fun e => orZero e.principal) =
      [3333 / 100, 3333 / 100, 3333 / 100] ∧
    100 - genPrincipalSum (generateSchedule 100 0 3 .nearest .amortized) = 1 / 100 ∧
    (1 / 100 : ℚ) ≠ 0 := by
  have hsched : generateSchedule 100 0 3 .nearest .amortized =
      [⟨1, 3333 / 100, some (3333 / 100), some 0⟩,
       ⟨2, 3333 / 100, some (3333 / 100), some 0⟩,
       ⟨3, 3333 / 100, some (3333 / 100), some 0⟩] := by
    norm_num [generateSchedule, amortGo, amortizedMonthlyPayment, applyRounding, round_eq]
  refine ⟨?_, ?_, by norm_num⟩
  · rw [hsched]; norm_num [orZero]
  · rw [hsched]; norm_num [genPrincipalSum, orZero]

/-- Witness for the amended C6 at a concrete input (P = 100, r = 0, N = 3,
round-half-up). -/
theorem C6_amortized_true_up_amended_witness :
    (generateSchedule 100 0 3 .nearest .amortized).getLast? = some
      ⟨3,
       applyRounding (amortLastBalance (amortizedMonthlyPayment 100 0 3) (0 / 100 / 12) 3 100 +
         (if (0 : ℚ) / 100 / 12 = 0 then 0
          else amortLastBalance (amortizedMonthlyPayment 100 0 3) (0 / 100 / 12) 3 100 *
            ((0 : ℚ) / 100 / 12))) .nearest,
       some (applyRounding
         (amortLastBalance (amortizedMonthlyPayment 100 0 3) (0 / 100 / 12) 3 100) .nearest),
       some (applyRounding
         (if (0 : ℚ) / 100 / 12 = 0 then 0
          else amortLastBalance (amortizedMonthlyPayment 100 0 3) (0 / 100 / 12) 3 100 *
            ((0 : ℚ) / 100 / 12)) .nearest)⟩ ∧
    (amortGo (amortizedMonthlyPayment 100 0 3) ((0 : ℚ) / 100 / 12) .nearest 3 1 100).2 = 0 :=
  C6_amortized_true_up_amended 100 0 3 .nearest (by norm_num) (by norm_num)

/-- Lemma: two-decimal rounding moves a value by at most one cent, for every
policy. -/
theorem abs_applyRounding_sub_le (x : ℚ) (pol : RoundingPolicy) :
    |applyRounding x pol - x| ≤ roundingEps := by
  rw [abs_le]
  cases pol with
  | up =>
    have h1 := Int.le_ceil (x * 100)
    have h2 := Int.ceil_lt_add_one (x * 100)
    unfold applyRounding roundingEps
    constructor <;> [linarith; linarith]
  | down =>
    have h1 := Int.floor_le (x * 100)
    have h2 := Int.lt_floor_add_one (x * 100)
    unfold applyRounding roundingEps
    constructor <;> [linarith; linarith]
  | nearest =>
    have h := abs_le.mp (abs_sub_round (x * 100))
    unfold applyRounding roundingEps
    constructor <;> [linarith [h.1, h.2]; linarith [h.1, h.2]]

@[simp]
theorem genPrincipalSum_nil : genPrincipalSum [] = 0 := rfl

@[simp]
theorem genPrincipalSum_cons (e : GenEntry) (l : List GenEntry) :
    genPrincipalSum (e :: l) = orZero e.principal + genPrincipalSum l := by
  simp [genPrincipalSum]

theorem sum_map_const_range (c : ℚ) :
    ∀ N : ℕ, ((List.range N).map (fun _ => c)).sum = N * c := by
  intro N
  induction N with
  | zero => simp
  | succ n ih =>
    rw [List.range_succ, List.map_append, List.sum_append, ih]
    push_cast
    simp
    ring

/-- Lemma: a flat-model schedule carries no principal fields at all, so the
sum of its principal fields is 0. -/
theorem genPrincipalSum_flat (P r : ℚ) (N : ℕ) (pol : RoundingPolicy) :
    genPrincipalSum (generateSchedule P r N pol .flat) = 0 := by
  unfold generateSchedule
  by_cases h : N = 0 ∨ P ≤ 0
  · rw [if_pos h]; rfl
  · rw [if_neg h]
    dsimp only
    unfold genPrincipalSum
    rw [List.map_map]
    have : ((fun e : GenEntry => orZero e.principal) ∘
        fun i : ℕ =>
          (⟨i + 1, applyRounding (P * (1 + r / 100 * ((N : ℚ) / 12)) / (N : ℚ)) pol,
            none, none⟩ : GenEntry)) = fun _ => (0 : ℚ) := rfl
    rw [this, sum_map_const_range]
    ring

/-- Lemma: the amortized-loop invariant survives one non-final period with
no clamping: the unrounded principal portion never exceeds the running
balance. -/
theorem amortInv_step (nominal rm b : ℚ) (k : ℕ)
    (hinv : AmortInv nominal rm (k + 2) b) :
    0 ≤ b - (nominal - (if rm = 0 then 0 else b * rm)) ∧
    AmortInv nominal rm (k + 1) (b - (nominal - (if rm = 0 then 0 else b * rm))) := by
  rcases hinv with ⟨hz, hn, hb⟩ | ⟨hpos, hn, hkey⟩
  · rw [if_pos hz]
    constructor
    · rw [hb]; push_cast; nlinarith
    · refine Or.inl ⟨hz, hn, ?_⟩
      rw [hb]; push_cast; ring
  · have hz : ¬ rm = 0 := ne_of_gt hpos
    rw [if_neg hz]
    have hq1 : (1 : ℚ) ≤ 1 + rm := by linarith
    have hQ1 : (1 : ℚ) ≤ (1 + rm) ^ (k + 1) := one_le_pow₀ hq1
    have hQpos : (0 : ℚ) < (1 + rm) ^ (k + 1) := by linarith
    have hkey' : (b * (1 + rm) - nominal) * (rm * (1 + rm) ^ (k + 1)) =
        nominal * ((1 + rm) ^ (k + 1) - 1) := by
      have hp : (1 + rm) ^ (k + 2) = (1 + rm) ^ (k + 1) * (1 + rm) := pow_succ _ _
      rw [hp] at hkey
      linear_combination hkey
    have hble : 0 ≤ b * (1 + rm) - nominal := by
      by_contra hneg
      push_neg at hneg
      have hlt : (b * (1 + rm) - nominal) * (rm * (1 + rm) ^ (k + 1)) < 0 :=
        mul_neg_of_neg_of_pos hneg (mul_pos hpos hQpos)
      have hge : 0 ≤ nominal * ((1 + rm) ^ (k + 1) - 1) :=
        mul_nonneg hn.le (by linarith)
      rw [hkey'] at hlt
      linarith
    constructor
    · nlinarith
    · refine Or.inr ⟨hpos, hn, ?_⟩
      calc (b - (nominal - b * rm)) * rm * (1 + rm) ^ (k + 1)
          = (b * (1 + rm) - nominal) * (rm * (1 + rm) ^ (k + 1)) := by ring
        _ = nominal * ((1 + rm) ^ (k + 1) - 1) := hkey'

/-- Lemma: under the loop invariant, the rounded principal fields of the
amortized loop retire the incoming balance within one rounding quantum per
period. -/
theorem amortGo_principal_sum (nominal rm : ℚ) (pol : RoundingPolicy) :
    ∀ (k : ℕ), 1 ≤ k → ∀ (m : ℕ) (b : ℚ), AmortInv nominal rm k b →
      |genPrincipalSum (amortGo nominal rm pol k m b).1 - b| ≤ k * roundingEps := by
  intro k
  induction k with
  | zero => intro h; omega
  | succ n ih =>
    intro _ m b hinv
    cases n with
    | zero =>
      have := abs_applyRounding_sub_le b pol
      simp only [amortGo, genPrincipalSum_cons, genPrincipalSum_nil, orZero, Option.getD]
      push_cast
      calc |applyRounding b pol + 0 - b| = |applyRounding b pol - b| := by ring_nf
        _ ≤ roundingEps := abs_applyRounding_sub_le b pol
        _ ≤ 1 * roundingEps := by rw [one_mul]
    | succ n' =>
      obtain ⟨hnoclip, hinv'⟩ := amortInv_step nominal rm b n' hinv
      have hmax : max 0 (b - (nominal - (if rm = 0 then 0 else b * rm))) =
          b - (nominal - (if rm = 0 then 0 else b * rm)) := max_eq_right hnoclip
      have ihh := ih (by omega) (m + 1)
        (b - (nominal - (if rm = 0 then 0 else b * rm))) hinv'
      have hround := abs_applyRounding_sub_le (nominal - (if rm = 0 then 0 else b * rm)) pol
      simp only [amortGo, genPrincipalSum_cons, orZero, Option.getD, hmax]
      have habs := abs_add
        (applyRounding (nominal - (if rm = 0 then 0 else b * rm)) pol -
          (nominal - (if rm = 0 then 0 else b * rm)))
        (genPrincipalSum (amortGo nominal rm pol (n' + 1) (m + 1)
            (b - (nominal - (if rm = 0 then 0 else b * rm)))).1 -
          (b - (nominal - (if rm = 0 then 0 else b * rm))))
      have hsum : applyRounding (nominal - (if rm = 0 then 0 else b * rm)) pol +
          genPrincipalSum (amortGo nominal rm pol (n' + 1) (m + 1)
            (b - (nominal - (if rm = 0 then 0 else b * rm)))).1 - b =
          (applyRounding (nominal - (if rm = 0 then 0 else b * rm)) pol -
            (nominal - (if rm = 0 then 0 else b * rm))) +
          (genPrincipalSum (amortGo nominal rm pol (n' + 1) (m + 1)
              (b - (nominal - (if rm = 0 then 0 else b * rm)))).1 -
            (b - (nominal - (if rm = 0 then 0 else b * rm)))) := by ring
      rw [hsum]
      refine habs.trans ?_
      push_cast
      push_cast at ihh
      linarith

/-- Lemma: the amortized-loop invariant holds initially for the source's
nominal payment. -/
theorem amortInv_init (P r : ℚ) (N : ℕ) (hP : 0 < P) (hN : 1 ≤ N) (hr : 0 ≤ r) :
    AmortInv (amortizedMonthlyPayment P r N) (r / 100 / 12) N P := by
  have hNQ : (0 : ℚ) < N := by exact_mod_cast Nat.pos_of_ne_zero (by omega)
  by_cases hz : r / 100 / 12 = 0
  · refine Or.inl ⟨hz, ?_, ?_⟩
    · unfold amortizedMonthlyPayment
      rw [if_neg (by push_neg; exact ⟨ne_of_gt hP, by omega⟩)]
      dsimp only
      rw [if_pos hz]
      positivity
    · unfold amortizedMonthlyPayment
      rw [if_neg (by push_neg; exact ⟨ne_of_gt hP, by omega⟩)]
      dsimp only
      rw [if_pos hz]
      field_simp
  · have hpos : 0 < r / 100 / 12 := lt_of_le_of_ne (by positivity) (Ne.symm hz)
    have hq1 : (1 : ℚ) < 1 + r / 100 / 12 := by linarith
    have hQ1 : (1 : ℚ) < (1 + r / 100 / 12) ^ N :=
      one_lt_pow₀ hq1 (by omega)
    have hQpos : (0 : ℚ) < (1 + r / 100 / 12) ^ N := by linarith
    have hnom : amortizedMonthlyPayment P r N =
        P * (r / 100 / 12) * (1 + r / 100 / 12) ^ N / ((1 + r / 100 / 12) ^ N - 1) := by
      unfold amortizedMonthlyPayment
      rw [if_neg (by push_neg; exact ⟨ne_of_gt hP, by omega⟩)]
      dsimp only
      rw [if_neg hz]
    refine Or.inr ⟨hpos, ?_, ?_⟩
    · rw [hnom]
      have hnum : 0 < P * (r / 100 / 12) * (1 + r / 100 / 12) ^ N :=
        mul_pos (mul_pos hP hpos) hQpos
      exact div_pos hnum (by linarith)
    · rw [hnom, div_mul_cancel₀]
      exact ne_of_gt (by linarith)

/-- C7 (amended).  For every valid input (P > 0, N ≥ 1, r ≥ 0) the equal and
amortized schedules' per-entry principal fields sum to P within
N × the rounding quantum (0.01).  The flat model must be excluded: its
entries carry no principal split at all (see the counterexample). -/
theorem C7_schedule_principal_sum_amended (P r : ℚ) (N : ℕ) (pol : RoundingPolicy)
    (model : InterestModel) (hP : 0 < P) (hN : 1 ≤ N) (hr : 0 ≤ r)
    (hmodel : model = .equal ∨ model = .amortized) :
    |genPrincipalSum (generateSchedule P r N pol model) - P| ≤ N * roundingEps := by
  have hNQ : (0 : ℚ) < N := by exact_mod_cast Nat.pos_of_ne_zero (by omega)
  rcases hmodel with rfl | rfl
  · unfold generateSchedule
    rw [if_neg (by push_neg; exact ⟨by omega, by linarith⟩)]
    dsimp only
    unfold genPrincipalSum
    rw [List.map_map]
    have hfun : ((fun e : GenEntry => orZero e.principal) ∘
        fun i : ℕ =>
          (⟨i + 1, applyRounding (P / (N : ℚ)) pol,
            some (applyRounding (P / (N : ℚ)) pol), some 0⟩ : GenEntry)) =
        fun _ => applyRounding (P / (N : ℚ)) pol := rfl
    rw [hfun, sum_map_const_range]
    have hone := abs_applyRounding_sub_le (P / (N : ℚ)) pol
    have h1 : (N : ℚ) * applyRounding (P / (N : ℚ)) pol - P =
        (N : ℚ) * (applyRounding (P / (N : ℚ)) pol - P / (N : ℚ)) := by
      have hNe : (N : ℚ) ≠ 0 := ne_of_gt hNQ
      field_simp
      ring
    rw [h1, abs_mul, abs_of_pos hNQ]
    exact mul_le_mul_of_nonneg_left hone hNQ.le
  · unfold generateSchedule
    rw [if_neg (by push_neg; exact ⟨by omega, by linarith⟩)]
    dsimp only
    exact amortGo_principal_sum (amortizedMonthlyPayment P r N) (r / 100 / 12) pol
      N hN 1 P (amortInv_init P r N hP hN hr)

/-- Counterexample to C7 as stated: the flat model's schedule entries carry
no principal fields, so their sum is 0 — for P = 1200, N = 12 that misses P
by 1200, far beyond N × any rounding epsilon. -/
theorem C7_schedule_principal_sum_counterexample :
    genPrincipalSum (generateSchedule 1200 0 12 .nearest .flat) = 0 ∧
    ¬ |(0 : ℚ) - 1200| ≤ 12 * roundingEps :=
  ⟨genPrincipalSum_flat 1200 0 12 .nearest, by norm_num [roundingEps]⟩

/-- Witness for the amended C7 at concrete inputs (spec example 1: equal,
12000 over 12 months). -/
theorem C7_schedule_principal_sum_amended_witness :
    |genPrincipalSum (generateSchedule 12000 0 12 .nearest .equal) - 12000| ≤
      12 * roundingEps :=
  C7_schedule_principal_sum_amended 12000 0 12 .nearest .equal
    (by norm_num) (by norm_num) (by norm_num) (Or.inl rfl)

/-- Witness for the amended C8 at a concrete input: one outstanding
500-entry, payment 700. -/
theorem C8_waterfall_skip_and_min_witness :
    (allocatePaymentToSchedule ([] ++ (⟨1, 500, 0, .pending, none⟩ : SEntry) :: [])
        .equal 700 .nearest).appliedToMonths.head? =
      some ⟨((1 : ℕ) : ℤ), min ((500 : ℚ) - 0) 700,
        max 0 (((500 : ℚ) - 0) - min ((500 : ℚ) - 0) 700)⟩ :=
  (C8_waterfall_skip_and_min .equal .nearest [] [] ⟨1, 500, 0, .pending, none⟩ 700
    (by intro e' he'; simp at he') (by norm_num) (by norm_num)).2

end Installment
